import Mathlib

/-!
Verification of the operator-learning / predicate-invention core of the
`predicators` repository.  The Python sources under `src/` are shallowly
embedded below: pure functions become Lean functions, sets become `Finset`s,
continuous features become `ℚ`, numpy models and other collaborator modules
(`utils.py`, `structs.py`, `models.py`, which are not part of the sources)
are either modelled from the specification or taken as oracle parameters.
Python `assert` failures and raised exceptions are modelled with
`Except String`.
-/

set_option maxHeartbeats 2000000

deriving instance DecidableEq for Except

namespace Predicators

/-- A `Type` from `structs.py` (not in the sources).  Modelled from the spec:
"a named category of object with an ordered list of named continuous
features"; we record only the number of features, which is what `State.vec`
needs. -/
structure ObjType where
  name : String
  numFeats : Nat
deriving DecidableEq, Inhabited

/-- An `Object` from `structs.py` (not in the sources).  Modelled from the
spec: "an instance of a Type with a unique name; hashable, comparable by
name+type". -/
structure Object where
  name : String
  ty : ObjType
deriving DecidableEq, Inhabited

/-- A `Variable` from `structs.py` (not in the sources).  Modelled from the
spec: "a placeholder standing for an Object of a given Type". -/
structure Variable where
  name : String
  ty : ObjType
deriving DecidableEq, Inhabited

/-- A `Predicate` from `structs.py` (not in the sources).  Modelled from the
spec: "a name, an ordered list of argument Types, and a classifier function;
two predicates are equal iff name+types match (classifier is NOT part of
identity)".  Accordingly the classifier is kept outside the structure, in an
`Interp` environment. -/
structure Predicate where
  name : String
  argTypes : List ObjType
deriving DecidableEq, Inhabited

/-- A `GroundAtom` from `structs.py` (not in the sources).  Modelled from the
spec: "(Predicate, tuple of Objects)". -/
structure GroundAtom where
  pred : Predicate
  args : List Object
deriving DecidableEq, Inhabited

/-- A `LiftedAtom` from `structs.py` (not in the sources).  Modelled from the
spec: "(Predicate, tuple of Variables)". -/
structure LiftedAtom where
  pred : Predicate
  args : List Variable
deriving DecidableEq, Inhabited

/-- A `State` from `structs.py` (not in the sources).  Modelled from the
spec: "mapping from Object to a fixed-length numeric feature vector";
represented as an association list in insertion order (Python dict order). -/
abbrev State := List (Object × List ℚ)

/-- A predicate classifier `(state, object-tuple) -> bool`. -/
abbrev Classifier := State → List Object → Bool

/-- The classifier environment: spec separates predicate identity from the
classifier, so classifiers are looked up by predicate identity. -/
abbrev Interp := Predicate → Classifier

/-- `ObjToVarSub` from `structs.py` (not in the sources): a dict from
objects to variables, as an association list in insertion order. -/
abbrev ObjToVarSub := List (Object × Variable)

/-- `VarToObjSub`: a dict from variables to objects. -/
abbrev VarToObjSub := List (Variable × Object)

/-- Association-list lookup (first binding wins, as in a Python dict that is
built without overwrites). -/
def alookup {α β : Type} [DecidableEq α] (l : List (α × β)) (k : α) :
    Option β :=
  (l.find? (fun p => p.1 = k)).map Prod.snd

/-- The objects of a state, `list(state)` in Python (dict keys in insertion
order). -/
def stateObjects (s : State) : List Object :=
  s.map Prod.fst

/-- `state[obj]` in Python: the feature vector of an object. -/
def stateFeats (s : State) (o : Object) : List ℚ :=
  (alookup s o).getD []

/-- `State.vec` from `structs.py` (not in the sources).  Modelled from the
spec: "vectorizing an arbitrary ordered tuple of objects by concatenating
their feature vectors". -/
def stateVec (s : State) (objs : List Object) : List ℚ :=
  objs.flatMap (stateFeats s)

/-- Total order on types (lexicographic on name, feature count), backing
Python `sorted`. -/
instance : LinearOrder ObjType :=
  LinearOrder.lift' (fun t => toLex (t.name, t.numFeats)) (fun a b h => by
    cases a; cases b
    simp only [toLex_inj, Prod.mk.injEq] at h
    simp [h.1, h.2])

/-- Total order on objects (spec: objects are comparable by name+type). -/
instance : LinearOrder Object :=
  LinearOrder.lift' (fun o => toLex (o.name, o.ty)) (fun a b h => by
    cases a; cases b
    simp only [toLex_inj, Prod.mk.injEq] at h
    simp [h.1, h.2])

/-- Total order on variables. -/
instance : LinearOrder Variable :=
  LinearOrder.lift' (fun v => toLex (v.name, v.ty)) (fun a b h => by
    cases a; cases b
    simp only [toLex_inj, Prod.mk.injEq] at h
    simp [h.1, h.2])

/-- Total order on predicates (name, then argument types). -/
instance : LinearOrder Predicate :=
  LinearOrder.lift' (fun p => toLex (p.name, p.argTypes)) (fun a b h => by
    cases a; cases b
    simp only [toLex_inj, Prod.mk.injEq] at h
    simp [h.1, h.2])

/-- Total order on ground atoms, backing Python `sorted` over atom sets. -/
instance : LinearOrder GroundAtom :=
  LinearOrder.lift' (fun a => toLex (a.pred, a.args)) (fun a b h => by
    cases a; cases b
    simp only [toLex_inj, Prod.mk.injEq] at h
    simp [h.1, h.2])

/-- All argument tuples drawn from `objs` matching the given type list
(duplicates allowed); helper for `get_object_combinations`. -/
def typeCombos : List Object → List ObjType → List (List Object)
  | _, [] => [[]]
  | objs, t :: ts =>
    (objs.filter (fun o => o.ty = t)).flatMap
      (fun o => (typeCombos objs ts).map (fun rest => o :: rest))

/-- `utils.get_object_combinations` (in `utils.py`, not in the sources).
Modelled from the spec: "every valid object-argument combination in a state
(no duplicate objects within one application unless the predicate permits
it)" — all type-respecting tuples, filtered to duplicate-free tuples when
`allowDup` is false. -/
def get_object_combinations (objs : List Object) (types : List ObjType)
    (allowDup : Bool) : List (List Object) :=
  (typeCombos objs types).filter (fun c => allowDup || decide c.Nodup)

/-- `utils.abstract` (in `utils.py`, not in the sources).  Modelled from the
spec: "abstract atoms are computed by applying every predicate's classifier
to every valid object-argument combination in a state". -/
def abstract (interp : Interp) (s : State) (preds : Finset Predicate) :
    Finset GroundAtom :=
  preds.biUnion (fun p =>
    (((get_object_combinations (stateObjects s) p.argTypes false).filter
        (fun args => interp p s args)).map
      (fun args => GroundAtom.mk p args)).toFinset)

/-- A ground parameterized option (`_Option` in `structs.py`, not in the
sources).  Modelled from the spec: a ParameterizedOption (name, argument
types, parameter space) bound to concrete objects and a concrete parameter
vector. -/
structure GroundOption where
  parentName : String
  parentTypes : List ObjType
  objects : List Object
  params : List ℚ
deriving DecidableEq, Inhabited

/-- A `ParameterizedOption` identity (name and argument types); the policy,
initiation, termination functions and the parameter space are collaborator
interfaces not needed by the embedded algorithms' identities. -/
structure ParamOption where
  name : String
  types : List ObjType
deriving DecidableEq, Inhabited

/-- `option.parent` in the sources. -/
def GroundOption.parent (o : GroundOption) : ParamOption :=
  ⟨o.parentName, o.parentTypes⟩

/-- A `Transition` as built in `generate_transitions`
(`operator_learning.py`): the 7-tuple (state, next_state, atoms, option,
next_atoms, add_effects, delete_effects). -/
structure Transition where
  state : State
  next_state : State
  atoms : Finset GroundAtom
  opt : GroundOption
  next_atoms : Finset GroundAtom
  add_effects : Finset GroundAtom
  delete_effects : Finset GroundAtom
deriving DecidableEq, Inhabited

/-- The result of `utils.action_to_option_trajectory` (in `utils.py`, not in
the sources): a state sequence together with the option sequence, with
`len(states) == len(options) + 1`. -/
abbrev OptTraj := List State × List GroundOption

/-- The body of the inner loop of `generate_transitions`
(`operator_learning.py` lines 53-60): for each option index, abstract both
endpoint states and split the symmetric difference into add and delete
effects. -/
def trajTransitions (interp : Interp) (preds : Finset Predicate)
    (traj : OptTraj) : List (GroundOption × Transition) :=
  (List.range traj.2.length).map (fun i =>
    let opt := traj.2.getD i default
    let s := traj.1.getD i []
    let s' := traj.1.getD (i + 1) []
    let atoms := abstract interp s preds
    let next_atoms := abstract interp s' preds
    (opt, ⟨s, s', atoms, opt, next_atoms, next_atoms \ atoms,
           atoms \ next_atoms⟩))

/-- Appending to a `defaultdict(list)` entry: existing keys are updated in
place, new keys are appended (Python dict insertion order). -/
def addToGroups (gs : List (ParamOption × List Transition)) (k : ParamOption)
    (t : Transition) : List (ParamOption × List Transition) :=
  match gs with
  | [] => [(k, [t])]
  | (k', ts) :: rest =>
    if k' = k then (k', ts ++ [t]) :: rest else (k', ts) :: addToGroups rest k t

/-- `generate_transitions` from `operator_learning.py`: compute the abstract
transitions of every trajectory and group them by parent option.  The
conversion `utils.action_to_option_trajectory` is a collaborator (it lives
in `utils.py`, not in the sources), so the dataset is taken after that
conversion. -/
def generate_transitions (interp : Interp) (dataset : List OptTraj)
    (preds : Finset Predicate) : List (ParamOption × List Transition) :=
  dataset.foldl (fun gs traj =>
    (trajTransitions interp preds traj).foldl
      (fun gs ot => addToGroups gs ot.1.parent ot.2) gs) []

/-- The transition invariant of claim C1: disjoint effects, and the
post-atoms are the pre-atoms minus the delete-effects union the
add-effects. -/
def transOK (t : Transition) : Prop :=
  t.add_effects ∩ t.delete_effects = ∅ ∧
    t.next_atoms = (t.atoms \ t.delete_effects) ∪ t.add_effects

instance (t : Transition) : Decidable (transOK t) := by
  unfold transOK; infer_instance

/-- The re-abstraction of one stored transition by the invention loop
(`iterative_invention_approach.py` lines 56-66): union in the atoms of the
newly invented predicates at both endpoints and recompute the effects. -/
def update_transition (interp : Interp) (newPreds : Finset Predicate)
    (t : Transition) : Transition :=
  let atoms := t.atoms ∪ abstract interp t.state newPreds
  let next_atoms := t.next_atoms ∪ abstract interp t.next_state newPreds
  ⟨t.state, t.next_state, atoms, t.opt, next_atoms, next_atoms \ atoms,
   atoms \ next_atoms⟩

/-- `atom.lift(sub)` from `structs.py` (not in the sources).  Modelled from
the spec: "lifting a ground atom requires a total object→variable
substitution covering its objects" (a missing binding would be a Python
`KeyError`; `getD default` stands for that crash and is ruled out by the
well-formedness hypotheses of the theorems that use it). -/
def GroundAtom.lift (a : GroundAtom) (sub : ObjToVarSub) : LiftedAtom :=
  ⟨a.pred, a.args.map (fun o => (alookup sub o).getD default)⟩

/-- `atom.ground(sub)` from `structs.py` (not in the sources).  Modelled from
the spec: "grounding a lifted atom requires a total variable→object
substitution". -/
def LiftedAtom.ground (a : LiftedAtom) (sub : VarToObjSub) : GroundAtom :=
  ⟨a.pred, a.args.map (fun v => (alookup sub v).getD default)⟩

/-- Renaming a predicate with a distinguishing name marker (the classifier
is not part of predicate identity, so only the name changes). -/
def wrapPred (pfx : String) (p : Predicate) : Predicate :=
  ⟨pfx ++ p.name, p.argTypes⟩

/-- `utils.wrap_atom_predicates_ground` (in `utils.py`, not in the sources).
Modelled from the spec: "each atom set uses a distinguishing name marker per
source so that unification cannot confuse an add-effect atom with a
precondition or option-argument atom of the same underlying predicate". -/
def wrap_atom_predicates_ground (atoms : Finset GroundAtom) (pfx : String) :
    Finset GroundAtom :=
  atoms.image (fun a => ⟨wrapPred pfx a.pred, a.args⟩)

/-- `utils.wrap_atom_predicates_lifted` (in `utils.py`, not in the
sources); see `wrap_atom_predicates_ground`. -/
def wrap_atom_predicates_lifted (atoms : Finset LiftedAtom) (pfx : String) :
    Finset LiftedAtom :=
  atoms.image (fun a => ⟨wrapPred pfx a.pred, a.args⟩)

/-- All objects appearing in a set of ground atoms. -/
def groundAtomObjects (G : Finset GroundAtom) : Finset Object :=
  G.biUnion (fun a => a.args.toFinset)

/-- All variables appearing in a set of lifted atoms. -/
def liftedAtomVars (L : Finset LiftedAtom) : Finset Variable :=
  L.biUnion (fun a => a.args.toFinset)

/-- All type-respecting injective assignments of the given objects to the
given variables, using every variable (the candidate bijections of the
unification search). -/
def candidateSubs : List Object → List Variable → List ObjToVarSub
  | [], vs => if vs.isEmpty then [[]] else []
  | o :: os, vs =>
    (vs.filter (fun v => v.ty = o.ty)).flatMap (fun v =>
      (candidateSubs os (vs.erase v)).map (fun rest => (o, v) :: rest))

/-- `utils.unify` (in `utils.py`, not in the sources).  Modelled from the
spec: "unification must find a substitution that is a bijection restricted
to the variables/objects that actually appear, such that applying it to
every lifted atom yields exactly the ground atom set (same cardinality,
same atoms) — ordering within an atom's argument tuple must match
positionally.  Fails if set sizes ... disagree, or if no consistent
bijection exists (backtracking search over candidate object assignments per
variable, pruned by argument-type compatibility)." -/
def unify (G : Finset GroundAtom) (L : Finset LiftedAtom) :
    Option ObjToVarSub :=
  if G.card = L.card then
    (candidateSubs ((groundAtomObjects G).sort (· ≤ ·))
        ((liftedAtomVars L).sort (· ≤ ·))).find?
      (fun sub => decide (G.image (fun a => a.lift sub) = L))
  else none

/-- `_unify` from `operator_learning.py`: wrap option arguments, add effects
and delete effects with distinguishing predicates and call `unify` on the
combined sets. -/
def _unify (gAdd gDel : Finset GroundAtom) (gOptArgs : List Object)
    (lAdd lDel : Finset LiftedAtom) (lOptArgs : List Variable) :
    Option ObjToVarSub :=
  let opt_arg_pred : Predicate := ⟨"OPT-ARGS", gOptArgs.map Object.ty⟩
  let fGround : Finset GroundAtom :=
    {GroundAtom.mk opt_arg_pred gOptArgs} ∪
      wrap_atom_predicates_ground gAdd "ADD-" ∪
      wrap_atom_predicates_ground gDel "DEL-"
  let fLifted : Finset LiftedAtom :=
    {LiftedAtom.mk opt_arg_pred lOptArgs} ∪
      wrap_atom_predicates_lifted lAdd "ADD-" ∪
      wrap_atom_predicates_lifted lDel "DEL-"
  unify fGround fLifted

/-- A partition member: a transition together with the substitution under
which it was unified with the partition representative. -/
abbrev Member := Transition × ObjToVarSub

/-- The four parallel lists returned by `_partition_transitions`. -/
structure PartitionResult where
  option_args : List (List Variable)
  add_effects : List (Finset LiftedAtom)
  delete_effects : List (Finset LiftedAtom)
  partitions : List (List Member)

/-- The inner `for i in range(len(partitions))` search of
`_partition_transitions`: the first partition representative that the
transition's ground effects and option arguments unify with. -/
def findUnify (trans_add trans_del : Finset GroundAtom)
    (trans_opt_args : List Object) :
    List (List Variable × Finset LiftedAtom × Finset LiftedAtom) →
      Option (Nat × ObjToVarSub)
  | [] => none
  | (ov, ae, de) :: rest =>
    match _unify trans_add trans_del trans_opt_args ae de ov with
    | some sub => some (0, sub)
    | none =>
      (findUnify trans_add trans_del trans_opt_args rest).map
        (fun p => (p.1 + 1, p.2))

/-- The objects touched by a transition's effects or option arguments
(`operator_learning.py` lines 137-139 and 173-175). -/
def transitionObjects (t : Transition) : Finset Object :=
  groundAtomObjects (t.add_effects ∪ t.delete_effects) ∪ t.opt.objects.toFinset

/-- Seeding a new partition (`_partition_transitions`, lines 136-150):
collect the touched objects, sort them, assign fresh variables in sorted
order, and lift the effects and option arguments through that
substitution. -/
def newPartitionData (t : Transition) :
    List Variable × Finset LiftedAtom × Finset LiftedAtom × ObjToVarSub :=
  let objects_lst := (transitionObjects t).sort (· ≤ ·)
  let vars := objects_lst.enum.map
    (fun p => Variable.mk ("?x" ++ toString p.1) p.2.ty)
  let sub : ObjToVarSub := objects_lst.zip vars
  let opt_args := t.opt.objects.map (fun o => (alookup sub o).getD default)
  (opt_args, t.add_effects.image (fun a => a.lift sub),
   t.delete_effects.image (fun a => a.lift sub), sub)

/-- One step of the `_partition_transitions` loop: first-fit assignment of a
transition to an existing partition, else creation of a new partition. -/
def partitionStep (acc : PartitionResult) (t : Transition) : PartitionResult :=
  match findUnify t.add_effects t.delete_effects t.opt.objects
      (acc.option_args.zip (acc.add_effects.zip acc.delete_effects)) with
  | some (i, sub) =>
    { acc with
      partitions := acc.partitions.set i (acc.partitions.getD i [] ++ [(t, sub)]) }
  | none =>
    let (opt_args, add, del, sub) := newPartitionData t
    { option_args := acc.option_args ++ [opt_args],
      add_effects := acc.add_effects ++ [add],
      delete_effects := acc.delete_effects ++ [del],
      partitions := acc.partitions ++ [[(t, sub)]] }

/-- `_partition_transitions` from `operator_learning.py`. -/
def _partition_transitions (transitions : List Transition) : PartitionResult :=
  transitions.foldl partitionStep ⟨[], [], [], []⟩

/-- The per-member computation of `_learn_preconditions`
(`operator_learning.py` lines 161-180): re-unify the member against the
partition representative, filter the pre-transition atoms to those whose
objects all participate in the effects or option arguments (no
action-at-a-distance), lift through the substitution, and collect the
sorted variable set. -/
def memberPreconditionData (option_vars : List Variable)
    (add del : Finset LiftedAtom) (m : Member) :
    Option (List Variable × Finset LiftedAtom) :=
  let t := m.1
  match _unify t.add_effects t.delete_effects t.opt.objects add del
      option_vars with
  | none => none
  | some sub =>
    let objects := transitionObjects t
    let atoms := t.atoms.filter (fun a => ∀ o ∈ a.args, o ∈ objects)
    some ((sub.map Prod.snd).dedup.mergeSort (fun a b => decide (a ≤ b)),
          atoms.image (fun a => a.lift sub))

/-- The member's filtered lifted atom set (the set intersected by
`_learn_preconditions`; `∅` stands for the crash case in which the member
fails to unify, which `_learn_preconditions` turns into an error). -/
def memberLiftedSet (option_vars : List Variable)
    (add del : Finset LiftedAtom) (m : Member) : Finset LiftedAtom :=
  ((memberPreconditionData option_vars add del m).map Prod.snd).getD ∅

/-- The `i > 0` arm of the `_learn_preconditions` loop: check the variable
set assertion and intersect the member's lifted atom set into the
accumulated preconditions. -/
def learnPreStep (option_vars : List Variable) (add del : Finset LiftedAtom)
    (acc : List Variable × Finset LiftedAtom) (m : Member) :
    Except String (List Variable × Finset LiftedAtom) :=
  match memberPreconditionData option_vars add del m with
  | none => .error "unification with partition representative failed"
  | some (vars, lifted) =>
    if vars = acc.1 then .ok (acc.1, acc.2 ∩ lifted)
    else .error "variable set mismatch across partition members"

/-- `_learn_preconditions` from `operator_learning.py`: the intersection,
over the partition members, of the filtered lifted atom sets; the `assert`s
of the source (unification success, identical variable sets) are modelled
as errors, as is the `NameError` the source would hit on an empty
partition. -/
def _learn_preconditions (option_vars : List Variable)
    (add del : Finset LiftedAtom) (members : List Member) :
    Except String (List Variable × Finset LiftedAtom) :=
  match members with
  | [] => .error "empty partition"
  | m0 :: rest =>
    match memberPreconditionData option_vars add del m0 with
    | none => .error "unification with partition representative failed"
    | some (vars0, pre0) =>
      rest.foldlM (learnPreStep option_vars add del) (vars0, pre0)

/-- The set-intersection of a non-empty list of finite sets (`∅` for the
empty list, which `_learn_preconditions` rejects). -/
def listInter : List (Finset LiftedAtom) → Finset LiftedAtom
  | [] => ∅
  | x :: xs => xs.foldl (fun a b => a ∩ b) x

/-- An `Operator` from `structs.py` (not in the sources).  Modelled from
the spec: "a name, an ordered list of Variables (parameters), a set of
lifted precondition atoms, lifted add-effects, lifted delete-effects, the
associated ParameterizedOption, the option's argument variables, and a
sampler function"; the sampler is omitted because the embedded paths
(operator structure learning and predicate invention) run with sampler
learning disabled and the claims do not mention the field. -/
structure Operator where
  name : String
  parameters : List Variable
  preconditions : Finset LiftedAtom
  add_effects : Finset LiftedAtom
  delete_effects : Finset LiftedAtom
  opt : ParamOption
  option_vars : List Variable
deriving DecidableEq, Inhabited

/-- One iteration of the partition loop of `learn_operators_for_option`
(`operator_learning.py` lines 75-100): skip partitions with too little
data, skip partitions with empty effects, learn preconditions and build
the operator. -/
def learnOpsStep (opt : ParamOption) (minData : Nat) (pr : PartitionResult)
    (ops : List Operator) (i : Nat) : Except String (List Operator) :=
  if (pr.partitions.getD i []).length < minData then .ok ops
  else if pr.add_effects.getD i ∅ = ∅ ∧ pr.delete_effects.getD i ∅ = ∅ then
    .ok ops
  else
    match _learn_preconditions (pr.option_args.getD i [])
        (pr.add_effects.getD i ∅) (pr.delete_effects.getD i ∅)
        (pr.partitions.getD i []) with
    | .error e => .error e
    | .ok (vars, preconds) =>
      .ok (ops ++ [⟨opt.name ++ toString i, vars, preconds,
        pr.add_effects.getD i ∅, pr.delete_effects.getD i ∅, opt,
        pr.option_args.getD i []⟩])

/-- `learn_operators_for_option` from `operator_learning.py`, on the
sampler-free path (`do_sampler_learning=False`, the configuration the
invention loop uses); `minData` is `CFG.min_data_for_operator`, a
configuration value (`settings.py` in the sources does not define it, so it
is passed as a parameter). -/
def learn_operators_for_option (opt : ParamOption) (minData : Nat)
    (transitions : List Transition) : Except String (List Operator) :=
  let pr := _partition_transitions transitions
  (List.range pr.partitions.length).foldlM (learnOpsStep opt minData pr) []

/-- A sampler-learning example `(state, var-to-obj substitution, option)`
(`_create_sampler_data` appends these to its positive and negative data
lists). -/
abbrev SamplerEx := State × VarToObjSub × GroundOption

/-- `{v: k for k, v in obj_to_var.items()}`: the inverted substitution; the
Python dict comprehension lets a later binding win, so lookup searches the
reversed list. -/
def invertSub (sub : ObjToVarSub) : VarToObjSub :=
  sub.reverse.map (fun p => (p.2, p.1))

/-- `[var_to_obj[var] for var in variables]`: the member's own recorded
grounding (`getD default` stands for the `KeyError` crash, ruled out by the
well-formedness hypotheses of the theorems that use it). -/
def actualGrounding (varsL : List Variable) (m : Member) : List Object :=
  varsL.map (fun v => (alookup (invertSub m.2) v).getD default)

/-- The innermost grounding loop of `_create_sampler_data`
(`operator_learning.py` lines 250-276), for one member transition of
partition `idx`: the member's own recorded grounding of the target
partition is a positive example; groundings whose grounded add and delete
effects are both subsets of the transition's actual effects are skipped;
every other grounding is a negative example. -/
def memberStep (varsL : List Variable) (add del : Finset LiftedAtom)
    (partition_idx idx : Nat) (m : Member)
    (acc : List SamplerEx × List SamplerEx) (grounding : List Object) :
    List SamplerEx × List SamplerEx :=
  if idx = partition_idx ∧ grounding = actualGrounding varsL m then
    (acc.1 ++ [(m.1.state, invertSub m.2, m.1.opt)], acc.2)
  else
    let sub := varsL.zip grounding
    if add.image (fun e => e.ground sub) ⊆ m.1.add_effects ∧
        del.image (fun e => e.ground sub) ⊆ m.1.delete_effects then acc
    else (acc.1, acc.2 ++ [(m.1.state, sub, m.1.opt)])

def memberExamples (varsL : List Variable) (add del : Finset LiftedAtom)
    (partition_idx idx : Nat) (m : Member) :
    List SamplerEx × List SamplerEx :=
  (get_object_combinations (stateObjects m.1.state) (varsL.map Variable.ty)
      false).foldl (memberStep varsL add del partition_idx idx m) ([], [])

/-- `_create_sampler_data` from `operator_learning.py`: iterate over every
partition (the target one and all others) and every member, collecting
positive and negative sampler examples.  The `preconditions` argument is
only read by the source's `assert` (settled separately). -/
def _create_sampler_data (transitions : List (List Member))
    (varsL : List Variable) (preconditions add del : Finset LiftedAtom)
    (param_option : ParamOption) (partition_idx : Nat) :
    List SamplerEx × List SamplerEx :=
  transitions.enum.foldl (fun acc q =>
    q.2.foldl (fun acc m =>
      let r := memberExamples varsL add del partition_idx q.1 m
      (acc.1 ++ r.1, acc.2 ++ r.2)) acc) ([], [])

/-- The `while num_rejections <= CFG.max_rejection_sampling_tries` loop of
`_LearnedSampler.sampler` (`operator_learning.py` lines 358-365): draw the
`i`-th candidate, stop with success on acceptance, stop with failure when
the tries are exhausted.  `fuel` is the number of remaining iterations
(`maxTries + 1` at the start); the `fuel = 0` base is unreachable. -/
def sampler_loop (accept : List ℚ → Bool) (draws : Nat → List ℚ) :
    Nat → Nat → List ℚ × Bool
  | _, 0 => ([], false)
  | i, fuel + 1 =>
    let params := draws i
    if accept params then (params, true)
    else if fuel = 0 then (params, false)
    else sampler_loop accept draws (i + 1) fuel

/-- `_LearnedSampler.sampler` from `operator_learning.py`.  The numeric
collaborators are oracles: `classify` is the trained `MLPClassifier` on the
bias+state-features+candidate vector (the features `x` already carry the
bias term), `draws i` is the `i`-th stochastic draw of
`regressor.predict_sample(x, rng)`, `contains` is
`params_space.contains`, and `uniform` is `params_space.sample()`.  A
candidate is accepted iff it is in bounds and classified positive;
exhaustion falls back to the last drawn candidate when in bounds, else to
the uniform sample. -/
def _LearnedSampler_sampler (classify : List ℚ → Bool)
    (contains : List ℚ → Bool) (uniform : List ℚ) (draws : Nat → List ℚ)
    (maxTries : Nat) (x : List ℚ) : List ℚ :=
  let accept := fun params => contains params && classify (x ++ params)
  let r := sampler_loop accept draws 0 (maxTries + 1)
  if r.2 then r.1
  else if contains r.1 then r.1 else uniform

/-- The deterministic name of the `n`-th invented predicate
(`iterative_invention_approach.py` line 194). -/
def inventedName (n : Nat) : String :=
  "InventedPredicate-" ++ toString n

/-- All size-`k` combinations of a list, in `itertools.combinations`
order. -/
def combosOfSize {α : Type} : Nat → List α → List (List α)
  | 0, _ => [[]]
  | _ + 1, [] => []
  | k + 1, x :: xs =>
    (combosOfSize k xs).map (fun rest => x :: rest) ++ combosOfSize (k + 1) xs

/-- `utils.powerset(l, exclude_empty=True)` (in `utils.py`, not in the
sources).  Modelled from the spec: "for EVERY non-empty subset of the
operator's parameters"; `itertools` powerset order, smallest size first. -/
def powerset_nonempty {α : Type} (l : List α) : List (List α) :=
  (List.range l.length).flatMap (fun r => combosOfSize (r + 1) l)

/-- `utils.get_all_groundings(lifteds, objects)` (in `utils.py`, not in the
sources).  Modelled from the spec: "for each valid grounding (substitution)
of the operator's signature variables over that object-set" — every
type-respecting assignment of the lifted set's variables to the objects,
paired with the grounded atom set. -/
def get_all_groundings (lifteds : Finset LiftedAtom)
    (objects : Finset Object) : List (Finset GroundAtom × VarToObjSub) :=
  let vars := (liftedAtomVars lifteds).sort (· ≤ ·)
  (typeCombos (objects.sort (· ≤ ·)) (vars.map Variable.ty)).map
    (fun combo =>
      let sub : VarToObjSub := vars.zip combo
      (lifteds.image (fun a => a.ground sub), sub))

/-- Appending to the `defaultdict(list)` of
`transitions_by_objects` (`iterative_invention_approach.py` lines
114-119). -/
def addToObjGroups (gs : List (Finset Object × List Transition))
    (k : Finset Object) (t : Transition) :
    List (Finset Object × List Transition) :=
  match gs with
  | [] => [(k, [t])]
  | (k', ts) :: rest =>
    if k' = k then (k', ts ++ [t]) :: rest
    else (k', ts) :: addToObjGroups rest k t

/-- Organize transitions by the set of objects in each one
(`iterative_invention_approach.py` lines 113-119). -/
def objGroups (transitions : List Transition) :
    List (Finset Object × List Transition) :=
  transitions.foldl
    (fun gs t => addToObjGroups gs (stateObjects t.state).toFinset t) []

/-- The wrapped operator signature of `_invent_for_operator`
(`iterative_invention_approach.py` lines 102-112): preconditions tagged
`PRE-`, add effects `ADD-`, delete effects `DEL-`, plus the synthetic
option-argument atom. -/
def operatorSignature (op : Operator) : Finset LiftedAtom :=
  let opt_arg_pred : Predicate := ⟨"OPT-ARGS", op.opt.types⟩
  wrap_atom_predicates_lifted op.preconditions "PRE-" ∪
    wrap_atom_predicates_lifted op.add_effects "ADD-" ∪
    wrap_atom_predicates_lifted op.delete_effects "DEL-" ∪
    {LiftedAtom.mk opt_arg_pred op.option_vars}

/-- The (substitution, transition) pairs that pass the
precondition/option-argument satisfiability check of
`_invent_for_operator` (`iterative_invention_approach.py` lines 127-145),
in iteration order: object groups, then groundings, then the group's
transitions. -/
def inventPairs (op : Operator) (transitions : List Transition) :
    List (VarToObjSub × Transition) :=
  let opt_arg_pred : Predicate := ⟨"OPT-ARGS", op.opt.types⟩
  (objGroups transitions).flatMap (fun grp =>
    (get_all_groundings (operatorSignature op) grp.1).flatMap (fun gs =>
      (grp.2.filter (fun t =>
        let ground_opt_atom : GroundAtom := ⟨opt_arg_pred, t.opt.objects⟩
        let trans_atoms := wrap_atom_predicates_ground t.atoms "PRE-"
        let pre_opt_grounding := gs.1.filter (fun atom =>
          atom.pred.name = "OPT-ARGS" ∨
            atom.pred.name.startsWith "PRE-" = true)
        pre_opt_grounding ⊆ trans_atoms ∪ {ground_opt_atom})).map
        (fun t => (gs.2, t))))

/-- Whether the transition's actual tagged effects equal the signature's
grounded effects (`iterative_invention_approach.py` lines 151-162): the
positive/negative label of one (grounding, transition) pair. -/
def pairLabel (op : Operator) (pair : VarToObjSub × Transition) : Bool :=
  decide
    (wrap_atom_predicates_ground pair.2.add_effects "ADD-" =
      (wrap_atom_predicates_lifted op.add_effects "ADD-").image
        (fun a => a.ground pair.1) ∧
     wrap_atom_predicates_ground pair.2.delete_effects "DEL-" =
      (wrap_atom_predicates_lifted op.delete_effects "DEL-").image
        (fun a => a.ground pair.1))

/-- `state.vec([sub[v] for v in params])`: the feature vector of one pair
for one parameter subset. -/
def pairVec (params : List Variable) (pair : VarToObjSub × Transition) :
    List ℚ :=
  stateVec pair.2.state
    (params.map (fun v => (alookup pair.1 v).getD default))

/-- The classifier-fit oracle: `MLPClassifier(...).fit(X, Y)` followed by
`classify` — the numeric model is a black-box collaborator
(`models.py` is not among the sources; the spec treats function
approximators as opaque fit/predict interfaces). -/
abbrev FitOracle := List (List ℚ) → List Bool → (List ℚ → Bool)

/-- `np.sum([model.classify(x) for x in X] == Y)`: how many training points
the fitted model classifies correctly. -/
def fitCount (model : List ℚ → Bool) (X : List (List ℚ)) (Y : List Bool) :
    Nat :=
  ((X.zip Y).filter (fun p => model p.1 == p.2)).length

/-- The per-parameter-subset body of the classifier loop of
`_invent_for_operator` (`iterative_invention_approach.py` lines 177-200):
fit a classifier, reject when the fit score is below the acceptance
threshold, otherwise score with an arity penalty of 0.1 per parameter and
keep the strictly best candidate.  `best` carries
`(best_score, best_pred, classifier)`. -/
def inventSubsetStep (fit : FitOracle) (acceptScore : ℚ)
    (numInventions : Nat) (op : Operator)
    (pairs : List (VarToObjSub × Transition))
    (best : Option (ℚ × Predicate × Classifier)) (params : List Variable) :
    Option (ℚ × Predicate × Classifier) :=
  let pos := (pairs.filter (pairLabel op)).map (pairVec params)
  let neg := (pairs.filter (fun p => !pairLabel op p)).map (pairVec params)
  let X := pos ++ neg
  let Y := List.replicate pos.length true ++ List.replicate neg.length false
  let model := fit X Y
  let fit_score : ℚ := (fitCount model X Y : ℚ) / (Y.length : ℚ)
  if fit_score < acceptScore then best
  else
    let score := fit_score - 1 / 10 * (params.length : ℚ)
    let pred : Predicate :=
      ⟨inventedName numInventions, params.map Variable.ty⟩
    let cls : Classifier := fun s objs => model (stateVec s objs)
    match best with
    | none => some (score, pred, cls)
    | some (bscore, bp, bc) =>
      if score > bscore then some (score, pred, cls)
      else some (bscore, bp, bc)

/-- `_invent_for_operator` from `iterative_invention_approach.py`: skip
zero-parameter operators, collect the labelled data, return `none` when the
operator makes no wrong predictions, otherwise fit one classifier per
non-empty parameter subset and return the best-scoring accepted candidate
(with its classifier) as the new predicate.  The source's `assert
data[all_params]["pos"]` is modelled as an error. -/
def _invent_for_operator (fit : FitOracle) (acceptScore : ℚ)
    (numInventions : Nat) (op : Operator) (transitions : List Transition) :
    Except String (Option (Predicate × Classifier)) :=
  if op.parameters = [] then .ok none
  else
    let pairs := inventPairs op transitions
    let posAll := pairs.filter (pairLabel op)
    let negAll := pairs.filter (fun p => !pairLabel op p)
    if posAll = [] then .error "How was this operator learned...?"
    else if negAll = [] then .ok none
    else
      .ok (((powerset_nonempty op.parameters).foldl
        (inventSubsetStep fit acceptScore numInventions op pairs)
        none).map (fun r => r.2))

/-- The inner `for idx2 in self._rng.permutation(len(operators))` loop of
`_invent_for_some_operator`: try inventing for each operator in the
permuted order, halting on the first success. -/
def inventOverOps (fit : FitOracle) (acceptScore : ℚ) (numInventions : Nat)
    (transitions : List Transition) (operators : List Operator) :
    List Nat → Except String (Option (Predicate × Classifier))
  | [] => .ok none
  | j :: rest =>
    match _invent_for_operator fit acceptScore numInventions
        (operators.getD j default) transitions with
    | .error e => .error e
    | .ok (some pc) => .ok (some pc)
    | .ok none =>
      inventOverOps fit acceptScore numInventions transitions operators rest

/-- The outer `for idx1 in self._rng.permutation(len(param_options))` loop
of `_invent_for_some_operator`: relearn the option's operators (without
samplers) and try each one, halting on the first successful invention. -/
def inventForSomeAux (fit : FitOracle) (acceptScore : ℚ) (minData : Nat)
    (numInventions : Nat) (permOps : Nat → List Nat)
    (tbo : List (ParamOption × List Transition)) :
    List Nat → Except String (Option (Predicate × Classifier))
  | [] => .ok none
  | i :: rest =>
    let g := tbo.getD i (default, [])
    match learn_operators_for_option g.1 minData g.2 with
    | .error e => .error e
    | .ok operators =>
      match inventOverOps fit acceptScore numInventions g.2 operators
          (permOps operators.length) with
      | .error e => .error e
      | .ok (some pc) => .ok (some pc)
      | .ok none =>
        inventForSomeAux fit acceptScore minData numInventions permOps tbo
          rest

/-- `_invent_for_some_operator` from `iterative_invention_approach.py`.
The seeded `rng.permutation` collaborator is abstracted by the oracles
`permOpt` and `permOps` mapping a length to the visiting order. -/
def _invent_for_some_operator (fit : FitOracle) (acceptScore : ℚ)
    (minData : Nat) (numInventions : Nat) (permOpt permOps : Nat → List Nat)
    (tbo : List (ParamOption × List Transition)) :
    Except String (Option (Predicate × Classifier)) :=
  inventForSomeAux fit acceptScore minData numInventions permOps tbo
    (permOpt tbo.length)

/-- `Predicate.get_negation` from `structs.py` (not in the sources).
Modelled from the spec: "predicates may be negated, producing a derived
predicate whose classifier inverts the original"; the negation keeps the
argument types and carries a marked name (spec glossary: `¬P`). -/
def get_negation (p : Predicate) (cls : Classifier) :
    Predicate × Classifier :=
  (⟨"NOT-" ++ p.name, p.argTypes⟩, fun s objs => !(cls s objs))

/-- The mutable state of `IterativeInventionApproach`'s invention loop: the
learned predicate set, the invention counter, and the per-option
transitions. -/
structure InventionState where
  learned : Finset Predicate
  numInventions : Nat
  tbo : List (ParamOption × List Transition)
deriving DecidableEq

/-- One iteration of the `while True` invention loop
(`iterative_invention_approach.py` lines 41-66): invent a predicate for
some operator; on success add it and its negation to the learned set,
increment the invention counter, and re-abstract every stored transition
with the two new predicates; on failure (`none`) the loop terminates. -/
def invention_step (fit : FitOracle) (acceptScore : ℚ) (minData : Nat)
    (permOpt permOps : Nat → List Nat) (s : InventionState) :
    Except String (Option InventionState) :=
  match _invent_for_some_operator fit acceptScore minData s.numInventions
      permOpt permOps s.tbo with
  | .error e => .error e
  | .ok none => .ok none
  | .ok (some (p, cls)) =>
    let neg := get_negation p cls
    let newInterp : Interp := fun q =>
      if q = p then cls else if q = neg.1 then neg.2 else fun _ _ => false
    .ok (some
      { learned := s.learned ∪ {p, neg.1},
        numInventions := s.numInventions + 1,
        tbo := s.tbo.map (fun g =>
          (g.1, g.2.map (update_transition newInterp {p, neg.1}))) })

/-- The `while True` invention loop with explicit fuel; returns the final
state and whether the loop actually converged (found no new predicate)
within the given number of iterations. -/
def invention_loop (fit : FitOracle) (acceptScore : ℚ) (minData : Nat)
    (permOpt permOps : Nat → List Nat) :
    Nat → InventionState → Except String (InventionState × Bool)
  | 0, s => .ok (s, false)
  | fuel + 1, s =>
    match invention_step fit acceptScore minData permOpt permOps s with
    | .error e => .error e
    | .ok none => .ok (s, true)
    | .ok (some s') =>
      invention_loop fit acceptScore minData permOpt permOps fuel s'

/-- The constant-true classifier oracle (a behaviour the black-box
`MLPClassifier` collaborator may exhibit). -/
def constTrueFit : FitOracle := fun _ _ _ => true

/-- The identity permutation oracle for `rng.permutation`. -/
def idPerm : Nat → List Nat := fun n => List.range n

/-- Python `int()` truncation toward zero, applied to an exact rational. -/
def pyInt (q : ℚ) : Int :=
  if 0 ≤ q then ⌊q⌋ else ⌈q⌉

/-- The per-state body of `create_teacher_dataset`
(`interactive_learning_approach.py` lines 232-242): sort the state's
abstract ground atoms, compute `n_samples = int(len(ground_atoms) * ratio)`,
raise `ApproachFailure` when fewer than one sample is requested, and
otherwise keep the atoms at the indices drawn by the rng.  The seeded
`rng.choice(..., replace=False)` collaborator is the oracle `choice`,
indexed by the number of previous calls `c` and called with the population
size and the sample size. -/
def teacherStateAtoms (interp : Interp) (preds : Finset Predicate)
    (ratio : ℚ) (choice : Nat → Nat → Nat → List Nat) (c : Nat)
    (s : State) : Except String (Finset GroundAtom) :=
  let ground_atoms := (abstract interp s preds).sort (· ≤ ·)
  let n_samples := (pyInt ((ground_atoms.length : ℚ) * ratio)).toNat
  if n_samples < 1 then .error "Need at least 1 ground atom sample"
  else
    let subset := choice c ground_atoms.length n_samples
    .ok (subset.map (fun j => ground_atoms.getD j default)).toFinset

/-- The inner `for s in ss` loop of `create_teacher_dataset`, threading the
rng call counter. -/
def teacherTraj (interp : Interp) (preds : Finset Predicate) (ratio : ℚ)
    (choice : Nat → Nat → Nat → List Nat) :
    List State → Nat → Except String (List (Finset GroundAtom) × Nat)
  | [], c => .ok ([], c)
  | s :: ss, c =>
    match teacherStateAtoms interp preds ratio choice c s with
    | .error e => .error e
    | .ok A =>
      match teacherTraj interp preds ratio choice ss (c + 1) with
      | .error e => .error e
      | .ok (rest, c') => .ok (A :: rest, c')

/-- The outer `for (ss, _) in dataset` loop of `create_teacher_dataset`. -/
def teacherTrajs (interp : Interp) (preds : Finset Predicate) (ratio : ℚ)
    (choice : Nat → Nat → Nat → List Nat) :
    List (List State) → Nat →
      Except String (List (List (Finset GroundAtom)) × Nat)
  | [], _ => .ok ([], 0)
  | ss :: rest, c =>
    match teacherTraj interp preds ratio choice ss c with
    | .error e => .error e
    | .ok (traj, c') =>
      match teacherTrajs interp preds ratio choice rest c' with
      | .error e => .error e
      | .ok (out, c'') => .ok (traj :: out, c'')

/-- `create_teacher_dataset` from `interactive_learning_approach.py`:
`ratio` is `CFG.teacher_dataset_label_ratio` and `choice` abstracts the
rng seeded with `CFG.seed` (both configuration values; `settings.py` in the
sources does not define them).  Each dataset entry is the state sequence of
one trajectory (the action components are unused by the source). -/
def create_teacher_dataset (interp : Interp) (preds : Finset Predicate)
    (ratio : ℚ) (choice : Nat → Nat → Nat → List Nat)
    (dataset : List (List State)) :
    Except String (List (List (Finset GroundAtom))) :=
  (teacherTrajs interp preds ratio choice dataset 0).map Prod.fst

/-- The identity-like index oracle used by concrete instances: the rng
draws the first `k` indices. -/
def rangeChoice : Nat → Nat → Nat → List Nat := fun _ _ k => List.range k

/-- `floor(r × n)` for a state: the number of teacher labels requested for
the state's abstraction (equal to the source's
`int(len(ground_atoms) * ratio)` when the ratio is non-negative). -/
def teacherFloor (interp : Interp) (preds : Finset Predicate) (ratio : ℚ)
    (s : State) : Nat :=
  (⌊((abstract interp s preds).card : ℚ) * ratio⌋).toNat

/-- The cup type of the concrete scenario of `test_sampler_learning.py`. -/
def cupType : ObjType := ⟨"cup_type", 1⟩

/-- The single cup object of the concrete scenario. -/
def cup0 : Object := ⟨"cup0", cupType⟩

/-- The scenario predicate `Pred0`, true when the cup's feature exceeds
0.5. -/
def pred0 : Predicate := ⟨"Pred0", [cupType]⟩

/-- The scenario classifier environment: `Pred0` holds of an object when its
first feature exceeds 1/2. -/
def scenarioInterp : Interp := fun p s args =>
  if p = pred0 then
    decide ((stateFeats s (args.getD 0 default)).getD 0 0 > 1 / 2)
  else false

/-- The scenario ground option (the test's `dummy` option, no arguments,
parameter vector [0.3]). -/
def dummyOpt : GroundOption := ⟨"dummy", [], [], [3 / 10]⟩

/-- The scenario state with feature 0.4. -/
def s04 : State := [(cup0, [2 / 5])]

/-- The scenario state with feature 0.9. -/
def s09 : State := [(cup0, [9 / 10])]

/-- The scenario dataset: one trajectory where the option raises the cup's
feature from 0.4 to 0.9 (adding `Pred0(cup0)`), one where nothing changes. -/
def scenarioDataset : List OptTraj :=
  [([s04, s09], [dummyOpt]), ([s04, s04], [dummyOpt])]

/-- The first transition generated for the scenario dataset. -/
def scenarioT1 : Transition :=
  ((generate_transitions scenarioInterp scenarioDataset {pred0}).getD 0
    default).2.getD 0 default

/-- The lifted variable `?cup0`-style placeholder of the scenario. -/
def x0Var : Variable := ⟨"?x0", cupType⟩

/-- The scenario's partition member: the Pred0-adding transition with its
recorded substitution. -/
def scenarioMember : Member := (scenarioT1, [(cup0, x0Var)])

/-- The scenario partition's lifted add-effects, `adds Pred0`. -/
def scenarioAddEffs : Finset LiftedAtom := {⟨pred0, [x0Var]⟩}

/-- The scenario's parameterized option. -/
def dummyParent : ParamOption := dummyOpt.parent

/-- The second transition generated for the scenario dataset (the
no-effect transition). -/
def scenarioT2 : Transition :=
  ((generate_transitions scenarioInterp scenarioDataset {pred0}).getD 0
    default).2.getD 1 default

/-- The two partitions of the scenario, as `test_sampler_learning.py`
builds them: partition 0 `adds Pred0` with substitution `{cup0: ?x0}`,
partition 1 `no effect` with the empty substitution. -/
def scenarioPartitions : List (List Member) :=
  [[(scenarioT1, [(cup0, x0Var)])], [(scenarioT2, [])]]

/-- The initial invention-loop state for the scenario dataset: no learned
predicates, counter zero, transitions abstracted with `Pred0`. -/
def scenarioState0 : InventionState :=
  ⟨∅, 0, generate_transitions scenarioInterp scenarioDataset {pred0}⟩

/-- The state after the first invention iteration on the scenario, under
the constant-true classifier oracle, acceptance threshold 1/2, minimum
data 1 and identity permutations. -/
def scenarioState1 : InventionState :=
  ((invention_step constTrueFit (1 / 2) 1 idPerm idPerm
    scenarioState0).toOption.getD none).getD ⟨∅, 0, []⟩

/-- The teacher dataset built for one trajectory holding the single state
with feature 0.9, at label ratio 1. -/
def scenarioTeacherOut : List (List (Finset GroundAtom)) :=
  (create_teacher_dataset scenarioInterp {pred0} 1 rangeChoice
    [[s09]]).toOption.getD []

/-- The operators learned for the scenario's option (minimum data 1). -/
def scenarioOps : List Operator :=
  (learn_operators_for_option dummyParent 1
    [scenarioT1, scenarioT2]).toOption.getD []

/-- The claimed iteration bound for the scenario: number of operators times
the number of non-empty parameter subsets per operator. -/
def scenarioBound : Nat :=
  scenarioOps.length *
    (2 ^ (scenarioOps.getD 0 default).parameters.length - 1)

lemma sdiff_union_invariant (A B : Finset GroundAtom) :
    (B \ A) ∩ (A \ B) = ∅ ∧ B = (A \ (A \ B)) ∪ (B \ A) := by
  constructor
  · ext a
    simp only [Finset.mem_inter, Finset.mem_sdiff, Finset.not_mem_empty,
      iff_false]
    tauto
  · ext a
    simp only [Finset.mem_union, Finset.mem_sdiff]
    tauto

lemma trajTransitions_transOK (interp : Interp) (preds : Finset Predicate)
    (traj : OptTraj) (p : GroundOption × Transition)
    (hp : p ∈ trajTransitions interp preds traj) : transOK p.2 := by
  unfold trajTransitions at hp
  simp only [List.mem_map, List.mem_range] at hp
  obtain ⟨i, _, rfl⟩ := hp
  exact sdiff_union_invariant _ _

lemma addToGroups_mem (gs : List (ParamOption × List Transition))
    (k : ParamOption) (t : Transition) (P : Transition → Prop)
    (hgs : ∀ g ∈ gs, ∀ u ∈ g.2, P u) (ht : P t) :
    ∀ g ∈ addToGroups gs k t, ∀ u ∈ g.2, P u := by
  induction gs with
  | nil =>
    intro g hg u hu
    simp only [addToGroups, List.mem_singleton] at hg
    rw [hg] at hu
    simp only [List.mem_singleton] at hu
    rw [hu]; exact ht
  | cons hd tl ih =>
    intro g hg u hu
    obtain ⟨k', ts⟩ := hd
    simp only [addToGroups] at hg
    by_cases hk : k' = k
    · rw [if_pos hk] at hg
      rcases List.mem_cons.mp hg with h | h
      · rw [h] at hu
        simp only [List.mem_append, List.mem_singleton] at hu
        rcases hu with hu | hu
        · exact hgs (k', ts) (List.mem_cons_self _ _) u hu
        · rw [hu]; exact ht
      · exact hgs g (List.mem_cons_of_mem _ h) u hu
    · rw [if_neg hk] at hg
      rcases List.mem_cons.mp hg with h | h
      · rw [h] at hu
        exact hgs (k', ts) (List.mem_cons_self _ _) u hu
      · exact ih (fun g' hg' => hgs g' (List.mem_cons_of_mem _ hg')) g h u hu

lemma generate_transitions_invariant (interp : Interp)
    (dataset : List OptTraj) (preds : Finset Predicate) :
    ∀ g ∈ generate_transitions interp dataset preds, ∀ t ∈ g.2, transOK t := by
  unfold generate_transitions
  suffices h : ∀ (init : List (ParamOption × List Transition)),
      (∀ g ∈ init, ∀ t ∈ g.2, transOK t) →
      ∀ g ∈ dataset.foldl (fun gs traj =>
        (trajTransitions interp preds traj).foldl
          (fun gs ot => addToGroups gs ot.1.parent ot.2) gs) init,
      ∀ t ∈ g.2, transOK t by
    exact h [] (by intro g hg; simp at hg)
  induction dataset with
  | nil => intro init hinit; simpa using hinit
  | cons traj rest ih =>
    intro init hinit
    simp only [List.foldl_cons]
    apply ih
    have hmain : ∀ (l : List (GroundOption × Transition)),
        (∀ p ∈ l, transOK p.2) →
        ∀ (acc : List (ParamOption × List Transition)),
        (∀ g ∈ acc, ∀ t ∈ g.2, transOK t) →
        ∀ g ∈ l.foldl (fun gs ot => addToGroups gs ot.1.parent ot.2) acc,
        ∀ t ∈ g.2, transOK t := by
      intro l
      induction l with
      | nil => intro _ acc hacc; simpa using hacc
      | cons p ps ihp =>
        intro hl acc hacc
        simp only [List.foldl_cons]
        apply ihp
        · intro q hq; exact hl q (List.mem_cons_of_mem _ hq)
        · exact addToGroups_mem acc p.1.parent p.2 transOK hacc
            (hl p (List.mem_cons_self _ _))
    exact hmain _ (fun p hp => trajTransitions_transOK interp preds traj p hp)
      init hinit

/-- C1: For every transition produced by `generate_transitions` (and for
every transition after the invention loop re-abstracts it with a newly
invented predicate and its negation), the add-effects and delete-effects
are disjoint, and the post-state atom set equals the pre-state atom set
minus the delete-effects union the add-effects. -/
theorem C1_effects_invariant (interp : Interp) (dataset : List OptTraj)
    (preds : Finset Predicate) :
    (∀ g ∈ generate_transitions interp dataset preds, ∀ t ∈ g.2,
      t.add_effects ∩ t.delete_effects = ∅ ∧
      t.next_atoms = (t.atoms \ t.delete_effects) ∪ t.add_effects) ∧
    (∀ (newPreds : Finset Predicate) (t : Transition),
      (update_transition interp newPreds t).add_effects ∩
        (update_transition interp newPreds t).delete_effects = ∅ ∧
      (update_transition interp newPreds t).next_atoms =
        ((update_transition interp newPreds t).atoms \
          (update_transition interp newPreds t).delete_effects) ∪
        (update_transition interp newPreds t).add_effects) := by
  constructor
  · exact generate_transitions_invariant interp dataset preds
  · intro newPreds t
    exact sdiff_union_invariant _ _

/-- Witness for C1 at a concrete one-object dataset. -/
theorem C1_effects_invariant_witness :
    scenarioT1.add_effects ∩ scenarioT1.delete_effects = ∅ ∧
    scenarioT1.next_atoms =
      (scenarioT1.atoms \ scenarioT1.delete_effects) ∪ scenarioT1.add_effects :=
  (C1_effects_invariant scenarioInterp scenarioDataset {pred0}).1
    ((generate_transitions scenarioInterp scenarioDataset {pred0}).getD 0
      default)
    (by with_unfolding_all decide) scenarioT1 (by with_unfolding_all decide)

lemma foldl_inter_subset_init (l : List (Finset LiftedAtom))
    (init : Finset LiftedAtom) :
    l.foldl (fun a b => a ∩ b) init ⊆ init := by
  induction l generalizing init with
  | nil => simp
  | cons x xs ih =>
    intro a ha
    have := ih (init ∩ x) ha
    exact (Finset.mem_inter.mp this).1

lemma foldl_inter_subset_mem (l : List (Finset LiftedAtom))
    (init X : Finset LiftedAtom) (hX : X ∈ l) :
    l.foldl (fun a b => a ∩ b) init ⊆ X := by
  induction l generalizing init with
  | nil => simp at hX
  | cons y ys ih =>
    rcases List.mem_cons.mp hX with h | h
    · intro a ha
      have := foldl_inter_subset_init ys (init ∩ y) ha
      rw [h]
      exact (Finset.mem_inter.mp this).2
    · exact ih _ h

lemma foldl_inter_mono_init (l : List (Finset LiftedAtom))
    (A B : Finset LiftedAtom) (h : A ⊆ B) :
    l.foldl (fun a b => a ∩ b) A ⊆ l.foldl (fun a b => a ∩ b) B := by
  induction l generalizing A B with
  | nil => simpa using h
  | cons x xs ih =>
    exact ih (A ∩ x) (B ∩ x)
      (Finset.inter_subset_inter h (Finset.Subset.refl x))

lemma foldl_inter_sublist (l' l : List (Finset LiftedAtom))
    (h : l'.Sublist l) (init : Finset LiftedAtom) :
    l.foldl (fun a b => a ∩ b) init ⊆ l'.foldl (fun a b => a ∩ b) init := by
  induction h generalizing init with
  | slnil => exact Finset.Subset.refl _
  | cons x _ ih =>
    intro a ha
    exact ih init (foldl_inter_mono_init _ _ _ Finset.inter_subset_left ha)
  | cons₂ x _ ih => exact ih (init ∩ x)

lemma except_bind_error {α β : Type} (e : String)
    (f : α → Except String β) :
    ((Except.error e : Except String α) >>= f) = Except.error e :=
  rfl

lemma except_bind_ok {α β : Type} (a : α) (f : α → Except String β) :
    ((Except.ok a : Except String α) >>= f) = f a :=
  rfl

lemma learnPre_foldlM_ok (option_vars : List Variable)
    (add del : Finset LiftedAtom) (rest : List Member) :
    ∀ (v0 : List Variable) (p0 : Finset LiftedAtom)
      (v : List Variable) (p : Finset LiftedAtom),
    rest.foldlM (learnPreStep option_vars add del) (v0, p0) = .ok (v, p) →
    v = v0 ∧
    p = rest.foldl
      (fun acc m => acc ∩ memberLiftedSet option_vars add del m) p0 ∧
    ∀ m ∈ rest, memberPreconditionData option_vars add del m =
      some (v0, memberLiftedSet option_vars add del m) := by
  induction rest with
  | nil =>
    intro v0 p0 v p h
    have h' : (Except.ok (v0, p0) : Except String _) = Except.ok (v, p) := h
    obtain ⟨h1, h2⟩ := Prod.mk.inj (Except.ok.inj h')
    subst h1; subst h2
    exact ⟨rfl, by simp, by simp⟩
  | cons m ms ih =>
    intro v0 p0 v p h
    simp only [List.foldlM_cons] at h
    rcases hm : memberPreconditionData option_vars add del m with
      _ | ⟨vars, lifted⟩
    · simp only [learnPreStep, hm, except_bind_error] at h
      exact absurd h (by simp)
    · simp only [learnPreStep, hm] at h
      split at h
      · rename_i hv
        have hv' : vars = v0 := hv
        rw [except_bind_ok] at h
        obtain ⟨hveq, hpeq, hmem⟩ := ih v0 (p0 ∩ lifted) v p h
        have hls : memberLiftedSet option_vars add del m = lifted := by
          simp [memberLiftedSet, hm]
        refine ⟨hveq, ?_, ?_⟩
        · rw [hpeq]
          simp [List.foldl_cons, hls]
        · intro m' hm'
          rcases List.mem_cons.mp hm' with h' | h'
          · rw [h', hm, hls, hv']
          · exact hmem m' h'
      · rw [except_bind_error] at h
        exact absurd h (by simp)

lemma learnPre_foldlM_complete (option_vars : List Variable)
    (add del : Finset LiftedAtom) (rest : List Member) :
    ∀ (v0 : List Variable) (p0 : Finset LiftedAtom),
    (∀ m ∈ rest, memberPreconditionData option_vars add del m =
      some (v0, memberLiftedSet option_vars add del m)) →
    rest.foldlM (learnPreStep option_vars add del) (v0, p0) =
      .ok (v0, rest.foldl
        (fun acc m => acc ∩ memberLiftedSet option_vars add del m) p0) := by
  induction rest with
  | nil => intro v0 p0 _; rfl
  | cons m ms ih =>
    intro v0 p0 hall
    have hm := hall m (List.mem_cons_self _ _)
    have hstep : learnPreStep option_vars add del (v0, p0) m =
        .ok (v0, p0 ∩ memberLiftedSet option_vars add del m) := by
      simp [learnPreStep, hm]
    simp only [List.foldlM_cons, hstep, except_bind_ok, List.foldl_cons]
    exact ih v0 (p0 ∩ memberLiftedSet option_vars add del m)
      (fun m' hm' => hall m' (List.mem_cons_of_mem _ hm'))

lemma sublist_tail_of_cons {α : Type} {m0 : α} {rest' rest : List α}
    (h : (m0 :: rest').Sublist (m0 :: rest)) : rest'.Sublist rest := by
  cases h with
  | cons a h2 => exact (List.sublist_cons_self m0 rest').trans h2
  | cons₂ => rename_i h2; exact h2

/-- C2: For every non-empty partition, the precondition set computed by
`_learn_preconditions` equals the intersection, over all member
transitions, of each member's pre-transition atoms filtered to atoms whose
every object appears in that member's effects or option arguments, lifted
through that member's substitution; hence it is a subset of every member's
filtered lifted atom set, and running `_learn_preconditions` on any
sub-list of the members (with the same first member) yields a superset of
the set computed from the full list. -/
theorem C2_precondition_intersection (option_vars : List Variable)
    (add del : Finset LiftedAtom) (members : List Member)
    (vars : List Variable) (pre : Finset LiftedAtom)
    (h : _learn_preconditions option_vars add del members = .ok (vars, pre)) :
    pre = listInter (members.map (memberLiftedSet option_vars add del)) ∧
    (∀ m ∈ members, pre ⊆ memberLiftedSet option_vars add del m) ∧
    (∀ members' : List Member, members'.Sublist members →
      members'.head? = members.head? →
      ∃ pre' : Finset LiftedAtom,
        _learn_preconditions option_vars add del members' = .ok (vars, pre') ∧
        pre ⊆ pre') := by
  match members with
  | [] => simp [_learn_preconditions] at h
  | m0 :: rest =>
    rcases hm0 : memberPreconditionData option_vars add del m0 with _ | ⟨v0, p0⟩
    · rw [_learn_preconditions, hm0] at h; simp at h
    · rw [_learn_preconditions, hm0] at h
      obtain ⟨hv, hp, hmem⟩ :=
        learnPre_foldlM_ok option_vars add del rest v0 p0 vars pre h
      have hf0 : memberLiftedSet option_vars add del m0 = p0 := by
        simp [memberLiftedSet, hm0]
      have hpre : pre = (rest.map (memberLiftedSet option_vars add del)).foldl
          (fun a b => a ∩ b) p0 := by
        rw [hp, List.foldl_map]
      refine ⟨?_, ?_, ?_⟩
      · rw [hpre]
        simp [listInter, List.map_cons, hf0]
      · intro m hm
        rcases List.mem_cons.mp hm with h' | h'
        · rw [h', hf0, hpre]
          exact foldl_inter_subset_init _ _
        · rw [hpre]
          exact foldl_inter_subset_mem _ _ _ (List.mem_map_of_mem _ h')
      · intro members' hsub hhead
        match members' with
        | [] => simp at hhead
        | m0' :: rest' =>
          simp only [List.head?_cons, Option.some.injEq] at hhead
          rw [hhead] at hsub ⊢
          have hsub' : rest'.Sublist rest := sublist_tail_of_cons hsub
          have hall : ∀ m ∈ rest', memberPreconditionData option_vars add del m
              = some (v0, memberLiftedSet option_vars add del m) :=
            fun m hm => hmem m (hsub'.subset hm)
          refine ⟨rest'.foldl
            (fun acc m => acc ∩ memberLiftedSet option_vars add del m) p0,
            ?_, ?_⟩
          · rw [_learn_preconditions, hm0, hv]
            exact learnPre_foldlM_complete option_vars add del rest' v0 p0 hall
          · have hpre' : rest'.foldl
                (fun acc m => acc ∩ memberLiftedSet option_vars add del m) p0 =
                (rest'.map (memberLiftedSet option_vars add del)).foldl
                  (fun a b => a ∩ b) p0 := by
              rw [List.foldl_map]
            rw [hpre, hpre']
            exact foldl_inter_sublist _ _ (hsub'.map _) p0

/-- Witness for C2 at a concrete two-member partition. -/
theorem C2_precondition_intersection_witness :
    (∅ : Finset LiftedAtom) =
      listInter ([scenarioMember, scenarioMember].map
        (memberLiftedSet [] scenarioAddEffs ∅)) :=
  (C2_precondition_intersection [] scenarioAddEffs ∅
    [scenarioMember, scenarioMember] [x0Var] ∅
    (by with_unfolding_all decide)).1

lemma memberExamples_fold (varsL : List Variable)
    (add del : Finset LiftedAtom) (partition_idx idx : Nat) (m : Member) :
    ∀ (l : List (List Object)) (acc : List SamplerEx × List SamplerEx),
    l.foldl (memberStep varsL add del partition_idx idx m) acc =
      (acc.1 ++ (l.filter (fun g =>
          decide (idx = partition_idx ∧ g = actualGrounding varsL m))).map
        (fun _ => (m.1.state, invertSub m.2, m.1.opt)),
       acc.2 ++ (l.filter (fun g =>
          !decide (idx = partition_idx ∧ g = actualGrounding varsL m) &&
          !decide (add.image (fun e => e.ground (varsL.zip g)) ⊆
              m.1.add_effects ∧
            del.image (fun e => e.ground (varsL.zip g)) ⊆
              m.1.delete_effects))).map
        (fun g => (m.1.state, varsL.zip g, m.1.opt))) := by
  intro l
  induction l with
  | nil => intro acc; simp
  | cons g gs ih =>
    intro acc
    simp only [List.foldl_cons]
    by_cases h1 : idx = partition_idx ∧ g = actualGrounding varsL m
    · have c1 : decide (idx = partition_idx ∧ g = actualGrounding varsL m) =
          true := decide_eq_true h1
      have hstep : memberStep varsL add del partition_idx idx m acc g =
          (acc.1 ++ [(m.1.state, invertSub m.2, m.1.opt)], acc.2) := by
        simp [memberStep, h1]
      rw [hstep, ih, List.filter_cons, List.filter_cons, c1]
      rw [if_pos rfl, if_neg (by simp)]
      simp [List.append_assoc]
    · have c1 : decide (idx = partition_idx ∧ g = actualGrounding varsL m) =
          false := decide_eq_false h1
      by_cases h2 : add.image (fun e => e.ground (varsL.zip g)) ⊆
          m.1.add_effects ∧
          del.image (fun e => e.ground (varsL.zip g)) ⊆ m.1.delete_effects
      · have c2 : decide (add.image (fun e => e.ground (varsL.zip g)) ⊆
            m.1.add_effects ∧
            del.image (fun e => e.ground (varsL.zip g)) ⊆
              m.1.delete_effects) = true := decide_eq_true h2
        have hstep : memberStep varsL add del partition_idx idx m acc g =
            acc := by
          simp [memberStep, h1, h2]
        rw [hstep, ih, List.filter_cons, List.filter_cons, c1, c2]
        rw [if_neg (by simp), if_neg (by simp)]
      · have c2 : decide (add.image (fun e => e.ground (varsL.zip g)) ⊆
            m.1.add_effects ∧
            del.image (fun e => e.ground (varsL.zip g)) ⊆
              m.1.delete_effects) = false := decide_eq_false h2
        have hstep : memberStep varsL add del partition_idx idx m acc g =
            (acc.1, acc.2 ++ [(m.1.state, varsL.zip g, m.1.opt)]) := by
          simp [memberStep, h1, h2]
        rw [hstep, ih, List.filter_cons, List.filter_cons, c1, c2]
        rw [if_neg (by simp), if_pos (by simp)]
        simp [List.append_assoc]

lemma foldl_append_pairs {α X Y : Type} (f : α → List X × List Y) :
    ∀ (l : List α) (acc : List X × List Y),
    l.foldl (fun acc a => (acc.1 ++ (f a).1, acc.2 ++ (f a).2)) acc =
      (acc.1 ++ l.flatMap (fun a => (f a).1),
       acc.2 ++ l.flatMap (fun a => (f a).2)) := by
  intro l
  induction l with
  | nil => intro acc; simp
  | cons a as ih =>
    intro acc
    simp only [List.foldl_cons, ih, List.flatMap_cons, List.append_assoc]

lemma create_sampler_data_eq (transitions : List (List Member))
    (varsL : List Variable) (preconditions add del : Finset LiftedAtom)
    (param_option : ParamOption) (partition_idx : Nat) :
    _create_sampler_data transitions varsL preconditions add del param_option
        partition_idx =
      (transitions.enum.flatMap (fun q => q.2.flatMap (fun m =>
        (memberExamples varsL add del partition_idx q.1 m).1)),
       transitions.enum.flatMap (fun q => q.2.flatMap (fun m =>
        (memberExamples varsL add del partition_idx q.1 m).2))) := by
  unfold _create_sampler_data
  suffices h : ∀ (l : List (Nat × List Member))
      (acc : List SamplerEx × List SamplerEx),
      l.foldl (fun acc q => q.2.foldl (fun acc m =>
        let r := memberExamples varsL add del partition_idx q.1 m
        (acc.1 ++ r.1, acc.2 ++ r.2)) acc) acc =
      (acc.1 ++ l.flatMap (fun q => q.2.flatMap (fun m =>
        (memberExamples varsL add del partition_idx q.1 m).1)),
       acc.2 ++ l.flatMap (fun q => q.2.flatMap (fun m =>
        (memberExamples varsL add del partition_idx q.1 m).2))) by
    rw [h]; simp
  intro l
  induction l with
  | nil => intro acc; simp
  | cons q qs ih =>
    intro acc
    simp only [List.foldl_cons]
    rw [foldl_append_pairs (fun m =>
      memberExamples varsL add del partition_idx q.1 m) q.2 acc, ih]
    simp [List.flatMap_cons, List.append_assoc]

/-- C3: In `_create_sampler_data`, a grounding of the target partition's
variables over a transition's objects is added as a negative example if and
only if it is not that transition's own recorded positive grounding and the
partition's add-effects and delete-effects, grounded under that grounding,
are not both subsets of the transition's actual add/delete effects; in
particular, in the concrete one-cup scenario with partitions `adds Pred0`
and `no effect`, the first partition yields 1 positive and 1 negative
example and the second partition yields 1 positive and 0 negative
examples. -/
theorem C3_sampler_negatives
    (transitions : List (List Member)) (varsL : List Variable)
    (preconditions add del : Finset LiftedAtom)
    (param_option : ParamOption) (partition_idx : Nat) :
    (_create_sampler_data transitions varsL preconditions add del
        param_option partition_idx).2 =
      transitions.enum.flatMap (fun q => q.2.flatMap (fun m =>
        ((get_object_combinations (stateObjects m.1.state)
            (varsL.map Variable.ty) false).filter (fun g =>
          !decide (q.1 = partition_idx ∧ g = actualGrounding varsL m) &&
          !decide (add.image (fun e => e.ground (varsL.zip g)) ⊆
              m.1.add_effects ∧
            del.image (fun e => e.ground (varsL.zip g)) ⊆
              m.1.delete_effects))).map
          (fun g => (m.1.state, varsL.zip g, m.1.opt)))) ∧
    ((_create_sampler_data scenarioPartitions [x0Var] ∅ scenarioAddEffs ∅
        dummyParent 0).1.length = 1 ∧
     (_create_sampler_data scenarioPartitions [x0Var] ∅ scenarioAddEffs ∅
        dummyParent 0).2.length = 1) ∧
    ((_create_sampler_data scenarioPartitions [] ∅ ∅ ∅
        dummyParent 1).1.length = 1 ∧
     (_create_sampler_data scenarioPartitions [] ∅ ∅ ∅
        dummyParent 1).2.length = 0) := by
  refine ⟨?_, by with_unfolding_all decide, by with_unfolding_all decide⟩
  rw [create_sampler_data_eq]
  have hfun : ∀ (idx : Nat) (m : Member),
      (memberExamples varsL add del partition_idx idx m).2 =
        ((get_object_combinations (stateObjects m.1.state)
            (varsL.map Variable.ty) false).filter (fun g =>
          !decide (idx = partition_idx ∧ g = actualGrounding varsL m) &&
          !decide (add.image (fun e => e.ground (varsL.zip g)) ⊆
              m.1.add_effects ∧
            del.image (fun e => e.ground (varsL.zip g)) ⊆
              m.1.delete_effects))).map
          (fun g => (m.1.state, varsL.zip g, m.1.opt)) := by
    intro idx m
    rw [memberExamples, memberExamples_fold]
    simp
  simp only [hfun]

lemma mem_abstract_holds (interp : Interp) (s : State)
    (preds : Finset Predicate) (a : GroundAtom)
    (h : a ∈ abstract interp s preds) : interp a.pred s a.args = true := by
  unfold abstract at h
  simp only [Finset.mem_biUnion, List.mem_toFinset, List.mem_map,
    List.mem_filter] at h
  obtain ⟨p, _, args, ⟨_, hcls⟩, heq⟩ := h
  cases heq
  exact hcls

lemma typeCombos_nodup (objs : List Object) (h : objs.Nodup) :
    ∀ types : List ObjType, (typeCombos objs types).Nodup := by
  intro types
  induction types with
  | nil => simp [typeCombos]
  | cons t ts ih =>
    rw [typeCombos, List.nodup_flatMap]
    constructor
    · intro o _
      exact ih.map (fun r1 r2 hr => by
        simpa using List.cons.inj hr)
    · have hfil : (objs.filter (fun o => decide (o.ty = t))).Nodup :=
        h.filter _
      refine List.Pairwise.imp ?_ hfil
      intro o1 o2 hne x hx1 hx2
      simp only [List.mem_map] at hx1 hx2
      obtain ⟨r1, _, hr1⟩ := hx1
      obtain ⟨r2, _, hr2⟩ := hx2
      rw [← hr1] at hr2
      exact hne (List.cons.inj hr2).1.symm

lemma combos_nodup (objs : List Object) (types : List ObjType)
    (h : objs.Nodup) :
    (get_object_combinations objs types false).Nodup :=
  (typeCombos_nodup objs h types).filter _

lemma filter_eq_self_length {α : Type} [DecidableEq α] (l : List α) (a : α)
    (hnd : l.Nodup) (ha : a ∈ l) :
    (l.filter (fun g => decide (g = a))).length = 1 := by
  induction l with
  | nil => simp at ha
  | cons x xs ih =>
    have hx : x ∉ xs := (List.nodup_cons.mp hnd).1
    rcases List.mem_cons.mp ha with h' | h'
    · rw [List.filter_cons]
      have : decide (x = a) = true := decide_eq_true h'.symm
      rw [this, if_pos rfl]
      have : xs.filter (fun g => decide (g = a)) = [] := by
        rw [List.filter_eq_nil_iff]
        intro g hg
        simp only [decide_eq_true_eq]
        intro hga
        rw [hga, h'] at hg
        exact hx hg
      simp [this]
    · have hxa : x ≠ a := by
        intro hh
        rw [hh] at hx
        exact hx h'
      rw [List.filter_cons]
      have : decide (x = a) = false := decide_eq_false hxa
      rw [this, if_neg (by simp)]
      exact ih ((List.nodup_cons.mp hnd).2) h'

lemma flatMap_singleton_length {α X : Type} (l : List α) (f : α → List X)
    (h : ∀ a ∈ l, (f a).length = 1) : (l.flatMap f).length = l.length := by
  induction l with
  | nil => simp
  | cons a as ih =>
    simp only [List.flatMap_cons, List.length_append, List.length_cons]
    rw [h a (List.mem_cons_self _ _),
      ih (fun a' ha' => h a' (List.mem_cons_of_mem _ ha'))]
    omega

lemma enumFrom_flatMap_len {X : Type} (F : Nat → List Member → List X) :
    ∀ (l : List (List Member)) (n k : Nat), k < l.length →
    (∀ i part, i ≠ n + k → F i part = []) →
    ((List.enumFrom n l).flatMap (fun q => F q.1 q.2)).length =
      (F (n + k) (l.getD k [])).length := by
  intro l
  induction l with
  | nil => intro n k hk; simp at hk
  | cons part rest ih =>
    intro n k hk hzero
    rw [List.enumFrom_cons, List.flatMap_cons, List.length_append]
    match k with
    | 0 =>
      have htail :
          (List.enumFrom (n + 1) rest).flatMap (fun q => F q.1 q.2) = [] := by
        rw [List.flatMap_eq_nil_iff]
        intro q hq
        obtain ⟨hle, _, _⟩ := List.mem_enumFrom hq
        exact hzero q.1 q.2 (by omega)
      rw [htail]
      simp [List.getD_cons_zero]
    | k' + 1 =>
      have hhead : F n part = [] := hzero n part (by omega)
      rw [hhead]
      simp only [List.length_nil, Nat.zero_add, List.getD_cons_succ]
      have hrec := ih (n + 1) k' (by simpa using hk)
        (fun i part' hi => hzero i part' (by omega))
      rw [hrec]
      have harith : n + 1 + k' = n + (k' + 1) := by omega
      rw [harith]

/-- C9: In `_create_sampler_data`, every member transition of the target
partition contributes exactly one positive example (its own recorded
grounding, at which all learned preconditions hold in the pre-state), so
the number of positive examples returned always equals the number of
transitions in the target partition and the function's final assertion
never fails. -/
theorem C9_sampler_positives (interp : Interp) (preds : Finset Predicate)
    (transitions : List (List Member)) (varsL : List Variable)
    (preconditions add del : Finset LiftedAtom)
    (param_option : ParamOption) (partition_idx : Nat)
    (hidx : partition_idx < transitions.length)
    (hwf : ∀ m ∈ transitions.getD partition_idx [],
      actualGrounding varsL m ∈ get_object_combinations
        (stateObjects m.1.state) (varsL.map Variable.ty) false ∧
      (stateObjects m.1.state).Nodup ∧
      m.1.atoms = abstract interp m.1.state preds ∧
      ∀ pre ∈ preconditions, pre.ground (invertSub m.2) ∈ m.1.atoms) :
    (_create_sampler_data transitions varsL preconditions add del
        param_option partition_idx).1.length =
      (transitions.getD partition_idx []).length ∧
    ∀ m ∈ transitions.getD partition_idx [], ∀ pre ∈ preconditions,
      interp pre.pred m.1.state
        (pre.args.map (fun v => (alookup (invertSub m.2) v).getD default)) =
        true := by
  constructor
  · rw [create_sampler_data_eq]
    have hchar : ∀ (idx : Nat) (m : Member),
        (memberExamples varsL add del partition_idx idx m).1 =
          ((get_object_combinations (stateObjects m.1.state)
              (varsL.map Variable.ty) false).filter (fun g =>
            decide (idx = partition_idx ∧ g = actualGrounding varsL m))).map
            (fun _ => (m.1.state, invertSub m.2, m.1.opt)) := by
      intro idx m
      rw [memberExamples, memberExamples_fold]
      simp
    have hzero : ∀ (i : Nat) (part : List Member), i ≠ 0 + partition_idx →
        part.flatMap (fun m =>
          (memberExamples varsL add del partition_idx i m).1) = [] := by
      intro i part hi
      rw [List.flatMap_eq_nil_iff]
      intro m _
      rw [hchar]
      have : (get_object_combinations (stateObjects m.1.state)
          (varsL.map Variable.ty) false).filter (fun g =>
            decide (i = partition_idx ∧ g = actualGrounding varsL m)) = [] := by
        rw [List.filter_eq_nil_iff]
        intro g _
        simp only [decide_eq_true_eq, not_and]
        intro h'
        exact absurd h' (by omega)
      rw [this]; rfl
    have hmain := enumFrom_flatMap_len
      (fun i part => part.flatMap (fun m =>
        (memberExamples varsL add del partition_idx i m).1))
      transitions 0 partition_idx hidx hzero
    have henum : transitions.enum = List.enumFrom 0 transitions := rfl
    rw [henum, hmain]
    simp only [Nat.zero_add]
    apply flatMap_singleton_length
    intro m hm
    rw [hchar]
    rw [List.length_map]
    have hcond : (fun g => decide (partition_idx = partition_idx ∧
        g = actualGrounding varsL m)) =
        (fun g => decide (g = actualGrounding varsL m)) := by
      funext g; simp
    rw [hcond]
    exact filter_eq_self_length _ _
      (combos_nodup _ _ (hwf m hm).2.1) (hwf m hm).1
  · intro m hm pre hpre
    obtain ⟨_, _, habs, hpres⟩ := hwf m hm
    have hin := hpres pre hpre
    rw [habs] at hin
    exact mem_abstract_holds interp m.1.state preds _ hin

/-- Witness for C9 at the concrete one-cup scenario. -/
theorem C9_sampler_positives_witness :
    (_create_sampler_data scenarioPartitions [x0Var] ∅ scenarioAddEffs ∅
        dummyParent 0).1.length =
      (scenarioPartitions.getD 0 []).length :=
  (C9_sampler_positives scenarioInterp {pred0} scenarioPartitions [x0Var]
    ∅ scenarioAddEffs ∅ dummyParent 0 (by with_unfolding_all decide)
    (by with_unfolding_all decide)).1

lemma learnOps_fold_invariant (opt : ParamOption) (minData : Nat)
    (pr : PartitionResult) (Q : Operator → Prop)
    (hQ : ∀ (i : Nat) (vars : List Variable) (preconds : Finset LiftedAtom),
      i < pr.partitions.length →
      minData ≤ (pr.partitions.getD i []).length →
      ¬(pr.add_effects.getD i ∅ = ∅ ∧ pr.delete_effects.getD i ∅ = ∅) →
      Q ⟨opt.name ++ toString i, vars, preconds, pr.add_effects.getD i ∅,
         pr.delete_effects.getD i ∅, opt, pr.option_args.getD i []⟩) :
    ∀ (l : List Nat) (ops0 ops : List Operator),
    (∀ i ∈ l, i < pr.partitions.length) → (∀ op ∈ ops0, Q op) →
    l.foldlM (learnOpsStep opt minData pr) ops0 = .ok ops →
    ∀ op ∈ ops, Q op := by
  intro l
  induction l with
  | nil =>
    intro ops0 ops _ hops0 h
    have h' : (Except.ok ops0 : Except String _) = Except.ok ops := h
    rw [← Except.ok.inj h']
    exact hops0
  | cons i is ih =>
    intro ops0 ops hlt hops0 h
    simp only [List.foldlM_cons] at h
    by_cases h1 : (pr.partitions.getD i []).length < minData
    · rw [learnOpsStep, if_pos h1, except_bind_ok] at h
      exact ih ops0 ops (fun j hj => hlt j (List.mem_cons_of_mem _ hj))
        hops0 h
    · by_cases h2 : pr.add_effects.getD i ∅ = ∅ ∧
          pr.delete_effects.getD i ∅ = ∅
      · rw [learnOpsStep, if_neg h1, if_pos h2, except_bind_ok] at h
        exact ih ops0 ops (fun j hj => hlt j (List.mem_cons_of_mem _ hj))
          hops0 h
      · rcases hlp : _learn_preconditions (pr.option_args.getD i [])
            (pr.add_effects.getD i ∅) (pr.delete_effects.getD i ∅)
            (pr.partitions.getD i []) with e | ⟨vars, preconds⟩
        · rw [learnOpsStep, if_neg h1, if_neg h2] at h
          rw [hlp, except_bind_error] at h
          exact absurd h (by simp)
        · rw [learnOpsStep, if_neg h1, if_neg h2] at h
          rw [hlp, except_bind_ok] at h
          refine ih _ ops (fun j hj => hlt j (List.mem_cons_of_mem _ hj))
            ?_ h
          intro op hop
          rcases List.mem_append.mp hop with h' | h'
          · exact hops0 op h'
          · rw [List.mem_singleton.mp h']
            exact hQ i vars preconds (hlt i (List.mem_cons_self _ _))
              (Nat.le_of_not_lt h1) h2

/-- C8: Every operator returned by `learn_operators_for_option` comes from
a partition containing at least `CFG.min_data_for_operator` transitions and
has a non-empty union of add-effects and delete-effects; partitions with
both effect sets empty, or with too few transitions, never produce an
operator. -/
theorem C8_operator_provenance (opt : ParamOption) (minData : Nat)
    (transitions : List Transition) (ops : List Operator)
    (h : learn_operators_for_option opt minData transitions = .ok ops) :
    ∀ op ∈ ops,
      op.add_effects ∪ op.delete_effects ≠ ∅ ∧
      ∃ i, i < (_partition_transitions transitions).partitions.length ∧
        minData ≤
          ((_partition_transitions transitions).partitions.getD i []).length ∧
        op.name = opt.name ++ toString i ∧
        op.add_effects =
          (_partition_transitions transitions).add_effects.getD i ∅ ∧
        op.delete_effects =
          (_partition_transitions transitions).delete_effects.getD i ∅ := by
  have := learnOps_fold_invariant opt minData (_partition_transitions transitions)
    (fun op => op.add_effects ∪ op.delete_effects ≠ ∅ ∧
      ∃ i, i < (_partition_transitions transitions).partitions.length ∧
        minData ≤
          ((_partition_transitions transitions).partitions.getD i []).length ∧
        op.name = opt.name ++ toString i ∧
        op.add_effects =
          (_partition_transitions transitions).add_effects.getD i ∅ ∧
        op.delete_effects =
          (_partition_transitions transitions).delete_effects.getD i ∅)
    (by
      intro i vars preconds hilen hge hne
      constructor
      · intro hemp
        apply hne
        constructor
        · apply Finset.eq_empty_of_forall_not_mem
          intro a ha
          have : a ∈ (∅ : Finset LiftedAtom) := by
            rw [← hemp]; exact Finset.mem_union_left _ ha
          simp at this
        · apply Finset.eq_empty_of_forall_not_mem
          intro a ha
          have : a ∈ (∅ : Finset LiftedAtom) := by
            rw [← hemp]; exact Finset.mem_union_right _ ha
          simp at this
      · exact ⟨i, hilen, hge, rfl, rfl, rfl⟩)
    (List.range (_partition_transitions transitions).partitions.length)
    [] ops (fun i hi => List.mem_range.mp hi) (by simp)
  exact this h

/-- Witness for C8 at the concrete two-transition scenario. -/
theorem C8_operator_provenance_witness :
    (scenarioOps.getD 0 default).add_effects ∪
      (scenarioOps.getD 0 default).delete_effects ≠ ∅ :=
  (C8_operator_provenance dummyParent 1 [scenarioT1, scenarioT2] scenarioOps
    (by with_unfolding_all decide) (scenarioOps.getD 0 default)
    (by with_unfolding_all decide)).1

lemma sampler_loop_accept (accept : List ℚ → Bool) (draws : Nat → List ℚ) :
    ∀ (target i fuel : Nat), target < fuel →
    (∀ j < target, accept (draws (i + j)) = false) →
    accept (draws (i + target)) = true →
    sampler_loop accept draws i fuel = (draws (i + target), true) := by
  intro target
  induction target with
  | zero =>
    intro i fuel hlt hprev hacc
    match fuel, hlt with
    | fuel + 1, _ =>
      rw [sampler_loop]
      simp only [Nat.add_zero] at hacc
      simp [hacc]
  | succ t ih =>
    intro i fuel hlt hprev hacc
    match fuel, hlt with
    | fuel + 1, hlt =>
      rw [sampler_loop]
      have h0 : accept (draws i) = false := by
        have := hprev 0 (Nat.succ_pos t)
        simpa using this
      have hf : fuel ≠ 0 := by omega
      simp only [h0, Bool.false_eq_true, if_false, hf, if_neg hf]
      have := ih (i + 1) fuel (by omega)
        (fun j hj => by
          have := hprev (j + 1) (by omega)
          rwa [show i + (j + 1) = i + 1 + j by omega] at this)
        (by rwa [show i + 1 + t = i + (t + 1) by omega])
      rw [this]
      rw [show i + 1 + t = i + (t + 1) by omega]

lemma sampler_loop_exhaust (accept : List ℚ → Bool) (draws : Nat → List ℚ) :
    ∀ (fuel i : Nat), 1 ≤ fuel →
    (∀ j < fuel, accept (draws (i + j)) = false) →
    sampler_loop accept draws i fuel = (draws (i + fuel - 1), false) := by
  intro fuel
  induction fuel with
  | zero => intro i h; omega
  | succ f ih =>
    intro i _ hall
    rw [sampler_loop]
    have h0 : accept (draws i) = false := by
      have := hall 0 (Nat.succ_pos f)
      simpa using this
    by_cases hf : f = 0
    · subst hf
      simp [h0]
    · simp only [h0, Bool.false_eq_true, if_false, if_neg hf]
      have := ih (i + 1) (by omega)
        (fun j hj => by
          have := hall (j + 1) (by omega)
          rwa [show i + (j + 1) = i + 1 + j by omega] at this)
      rw [this, show i + 1 + f - 1 = i + (f + 1) - 1 by omega]

/-- C6: The learned sampler accepts a drawn candidate parameter vector only
if it lies within the option's parameter space and the classifier labels
the bias+state-features+candidate vector positive; otherwise it retries up
to the configured maximum rejection count, and on exhaustion it returns the
last drawn candidate if that candidate is in bounds, else a uniform sample
from the parameter space. -/
theorem C6_learned_sampler (classify contains : List ℚ → Bool)
    (uniform : List ℚ) (draws : Nat → List ℚ) (maxTries : Nat)
    (x : List ℚ) :
    (∀ i, i ≤ maxTries →
      (contains (draws i) && classify (x ++ draws i)) = true →
      (∀ j < i, (contains (draws j) && classify (x ++ draws j)) = false) →
      _LearnedSampler_sampler classify contains uniform draws maxTries x =
        draws i) ∧
    ((∀ i ≤ maxTries,
        (contains (draws i) && classify (x ++ draws i)) = false) →
      _LearnedSampler_sampler classify contains uniform draws maxTries x =
        if contains (draws maxTries) then draws maxTries else uniform) := by
  constructor
  · intro i hle hacc hprev
    have hloop := sampler_loop_accept
      (fun params => contains params && classify (x ++ params)) draws i 0
      (maxTries + 1) (by omega)
      (fun j hj => by simpa using hprev j hj) (by simpa using hacc)
    rw [Nat.zero_add] at hloop
    simp only [_LearnedSampler_sampler, hloop]
    simp
  · intro hall
    have hloop := sampler_loop_exhaust
      (fun params => contains params && classify (x ++ params)) draws
      (maxTries + 1) 0 (by omega)
      (fun j hj => by
        have := hall j (by omega)
        simpa using this)
    rw [show 0 + (maxTries + 1) - 1 = maxTries by omega] at hloop
    simp only [_LearnedSampler_sampler, hloop]
    simp

/-- Witness for C6 at a concrete always-rejecting instance. -/
theorem C6_learned_sampler_witness :
    _LearnedSampler_sampler (fun _ => false) (fun p => decide (p = [0]))
        [0] (fun _ => [1]) 3 [] =
      if decide (([1] : List ℚ) = [0]) then [1] else [0] :=
  (C6_learned_sampler (fun _ => false) (fun p => decide (p = [0]))
    [0] (fun _ => [1]) 3 []).2 (fun i _ => by simp)

/-- C10: For every state, random generator, and object binding, the
parameter vector returned by the learned sampler always lies within the
option's parameter space, whether it was accepted by the classifier, kept
as an in-bounds last candidate after exhausting rejections, or drawn by
the uniform fallback. -/
theorem C10_sampler_in_bounds (classify contains : List ℚ → Bool)
    (uniform : List ℚ) (draws : Nat → List ℚ) (maxTries : Nat)
    (x : List ℚ) (hU : contains uniform = true) :
    contains
      (_LearnedSampler_sampler classify contains uniform draws maxTries x) =
      true := by
  by_cases hex : ∃ j, j ≤ maxTries ∧
      (contains (draws j) && classify (x ++ draws j)) = true
  · have hfind := Nat.find_spec hex
    have heq := (C6_learned_sampler classify contains uniform draws maxTries
      x).1 (Nat.find hex) hfind.1 hfind.2
      (fun j hj => by
        by_contra hne
        have hj' : j ≤ maxTries := le_trans (Nat.le_of_lt hj) hfind.1
        exact Nat.find_min hex hj
          ⟨hj', by
            cases hcl : (contains (draws j) && classify (x ++ draws j)) with
            | true => rfl
            | false => exact absurd hcl hne⟩)
    rw [heq]
    exact ((Bool.and_eq_true _ _).mp hfind.2).1
  · push_neg at hex
    have hall : ∀ i ≤ maxTries,
        (contains (draws i) && classify (x ++ draws i)) = false := by
      intro i hi
      cases hcl : (contains (draws i) && classify (x ++ draws i)) with
      | true => exact absurd hcl (hex i hi)
      | false => rfl
    have heq := (C6_learned_sampler classify contains uniform draws maxTries
      x).2 hall
    rw [heq]
    by_cases hc : contains (draws maxTries) = true
    · rw [if_pos hc]; exact hc
    · rw [if_neg (by simpa using hc)]; exact hU

/-- Witness for C10 at a concrete instance. -/
theorem C10_sampler_in_bounds_witness :
    (fun p => decide (p = ([0] : List ℚ)))
      (_LearnedSampler_sampler (fun _ => false)
        (fun p => decide (p = [0])) [0] (fun _ => [1]) 3 []) = true :=
  C10_sampler_in_bounds (fun _ => false) (fun p => decide (p = [0]))
    [0] (fun _ => [1]) 3 [] (by decide)

lemma teacherState_spec (interp : Interp) (preds : Finset Predicate)
    (ratio : ℚ) (choice : Nat → Nat → Nat → List Nat)
    (hr0 : 0 ≤ ratio) (hr1 : ratio ≤ 1)
    (hchoice : ∀ c n k, k ≤ n → (choice c n k).length = k ∧
      (choice c n k).Nodup ∧ ∀ j ∈ choice c n k, j < n)
    (c : Nat) (s : State) :
    (teacherFloor interp preds ratio s = 0 →
      teacherStateAtoms interp preds ratio choice c s =
        .error "Need at least 1 ground atom sample") ∧
    (∀ A, teacherStateAtoms interp preds ratio choice c s = .ok A →
      0 < teacherFloor interp preds ratio s ∧
      A.card = teacherFloor interp preds ratio s ∧
      A ⊆ abstract interp s preds) ∧
    (0 < teacherFloor interp preds ratio s →
      ∃ A, teacherStateAtoms interp preds ratio choice c s = .ok A) := by
  have hlen : ((abstract interp s preds).sort (· ≤ ·)).length =
      (abstract interp s preds).card := Finset.length_sort _
  have hq : (0 : ℚ) ≤
      ((((abstract interp s preds).sort (· ≤ ·)).length : ℚ) * ratio) :=
    mul_nonneg (by positivity) hr0
  have hk : (pyInt ((((abstract interp s preds).sort (· ≤ ·)).length : ℚ) *
      ratio)).toNat = teacherFloor interp preds ratio s := by
    rw [pyInt, if_pos hq, teacherFloor, hlen]
  have hkn : teacherFloor interp preds ratio s ≤
      (abstract interp s preds).card := by
    rw [teacherFloor]
    have h1 : ((abstract interp s preds).card : ℚ) * ratio ≤
        ((abstract interp s preds).card : ℚ) := by
      nlinarith [Nat.cast_nonneg (α := ℚ) (abstract interp s preds).card]
    have h2 : ⌊((abstract interp s preds).card : ℚ) * ratio⌋ ≤
        ((abstract interp s preds).card : Int) := by
      calc ⌊((abstract interp s preds).card : ℚ) * ratio⌋ ≤
          ⌊((abstract interp s preds).card : ℚ)⌋ := Int.floor_le_floor h1
        _ = ((abstract interp s preds).card : Int) := by
            exact_mod_cast Int.floor_natCast _
    exact_mod_cast Int.toNat_le.mpr h2
  refine ⟨?_, ?_, ?_⟩
  · intro h0
    rw [teacherStateAtoms]
    simp only [hk, h0]
    rw [if_pos (by omega)]
  · intro A hA
    rw [teacherStateAtoms] at hA
    simp only [hk] at hA
    by_cases hlt : teacherFloor interp preds ratio s < 1
    · rw [if_pos hlt] at hA
      exact absurd hA (by simp)
    · rw [if_neg hlt] at hA
      have hok := Except.ok.inj hA
      obtain ⟨hlenc, hnd, hbound⟩ := hchoice c
        ((abstract interp s preds).sort (· ≤ ·)).length
        (teacherFloor interp preds ratio s) (by rw [hlen]; exact hkn)
      have hmap_nd : ((choice c
          ((abstract interp s preds).sort (· ≤ ·)).length
          (teacherFloor interp preds ratio s)).map
          (fun j => ((abstract interp s preds).sort (· ≤ ·)).getD j
            default)).Nodup := by
        refine List.Nodup.map_on ?_ hnd
        intro x hx y hy hxy
        have hxb := hbound x hx
        have hyb := hbound y hy
        rw [List.getD_eq_getElem _ _ hxb, List.getD_eq_getElem _ _ hyb] at hxy
        exact ((Finset.sort_nodup _ _).getElem_inj_iff).mp hxy
      refine ⟨by omega, ?_, ?_⟩
      · rw [← hok, List.toFinset_card_of_nodup hmap_nd, List.length_map,
          hlenc]
      · intro a ha
        rw [← hok] at ha
        rw [List.mem_toFinset] at ha
        obtain ⟨j, hj, hjeq⟩ := List.mem_map.mp ha
        have hjb := hbound j hj
        rw [List.getD_eq_getElem _ _ hjb] at hjeq
        rw [← hjeq]
        exact (Finset.mem_sort (α := GroundAtom) (· ≤ ·)).mp
          (List.getElem_mem _)
  · intro h0
    rw [teacherStateAtoms]
    simp only [hk]
    rw [if_neg (by omega)]
    exact ⟨_, rfl⟩

lemma teacherTraj_spec (interp : Interp) (preds : Finset Predicate)
    (ratio : ℚ) (choice : Nat → Nat → Nat → List Nat)
    (hr0 : 0 ≤ ratio) (hr1 : ratio ≤ 1)
    (hchoice : ∀ c n k, k ≤ n → (choice c n k).length = k ∧
      (choice c n k).Nodup ∧ ∀ j ∈ choice c n k, j < n) :
    ∀ (ss : List State) (c : Nat) (out : List (Finset GroundAtom))
      (c' : Nat),
    teacherTraj interp preds ratio choice ss c = .ok (out, c') →
    out.length = ss.length ∧
    ∀ j, j < ss.length →
      (out.getD j ∅).card = teacherFloor interp preds ratio (ss.getD j []) ∧
      0 < teacherFloor interp preds ratio (ss.getD j []) := by
  intro ss
  induction ss with
  | nil =>
    intro c out c' h
    have h' := Except.ok.inj (show (Except.ok ([], c) :
      Except String (List (Finset GroundAtom) × Nat)) = .ok (out, c') from h)
    obtain ⟨h1, _⟩ := Prod.mk.inj h'
    rw [← h1]
    exact ⟨rfl, by intro j hj; simp at hj⟩
  | cons s ss' ih =>
    intro c out c' h
    rw [teacherTraj] at h
    rcases hA : teacherStateAtoms interp preds ratio choice c s with e | A
    · rw [hA] at h; simp at h
    · rw [hA] at h
      rcases hT : teacherTraj interp preds ratio choice ss' (c + 1) with
        e | ⟨rest, c2⟩
      · rw [hT] at h; simp at h
      · rw [hT] at h
        have h' := Except.ok.inj h
        obtain ⟨h1, _⟩ := Prod.mk.inj h'
        rw [← h1]
        obtain ⟨hlen, hrest⟩ := ih (c + 1) rest c2 hT
        obtain ⟨_, hokA, _⟩ := teacherState_spec interp preds ratio choice
          hr0 hr1 hchoice c s
        obtain ⟨hpos, hcard, _⟩ := hokA A hA
        constructor
        · simp [hlen]
        · intro j hj
          match j with
          | 0 => simpa using ⟨hcard, hpos⟩
          | j' + 1 =>
            simp only [List.getD_cons_succ]
            exact hrest j' (by simpa using hj)

lemma teacherTrajs_spec (interp : Interp) (preds : Finset Predicate)
    (ratio : ℚ) (choice : Nat → Nat → Nat → List Nat)
    (hr0 : 0 ≤ ratio) (hr1 : ratio ≤ 1)
    (hchoice : ∀ c n k, k ≤ n → (choice c n k).length = k ∧
      (choice c n k).Nodup ∧ ∀ j ∈ choice c n k, j < n) :
    ∀ (ds : List (List State)) (c : Nat)
      (out : List (List (Finset GroundAtom))) (c' : Nat),
    teacherTrajs interp preds ratio choice ds c = .ok (out, c') →
    out.length = ds.length ∧
    ∀ i, i < ds.length → ∀ j, j < (ds.getD i []).length →
      ((out.getD i []).getD j ∅).card =
        teacherFloor interp preds ratio ((ds.getD i []).getD j []) ∧
      0 < teacherFloor interp preds ratio ((ds.getD i []).getD j []) := by
  intro ds
  induction ds with
  | nil =>
    intro c out c' h
    have h' := Except.ok.inj (show (Except.ok ([], 0) :
      Except String (List (List (Finset GroundAtom)) × Nat)) =
        .ok (out, c') from h)
    obtain ⟨h1, _⟩ := Prod.mk.inj h'
    rw [← h1]
    exact ⟨rfl, by intro i hi; simp at hi⟩
  | cons ss rest ih =>
    intro c out c' h
    rw [teacherTrajs] at h
    rcases hT : teacherTraj interp preds ratio choice ss c with e | ⟨traj, c2⟩
    · rw [hT] at h; simp at h
    · simp only [hT] at h
      rcases hR : teacherTrajs interp preds ratio choice rest c2 with
        e | ⟨outR, c3⟩
      · rw [hR] at h; simp at h
      · simp only [hR] at h
        have h' := Except.ok.inj h
        obtain ⟨h1, _⟩ := Prod.mk.inj h'
        rw [← h1]
        obtain ⟨hlenR, hrestR⟩ := ih c2 outR c3 hR
        obtain ⟨hlenT, htraj⟩ := teacherTraj_spec interp preds ratio choice
          hr0 hr1 hchoice ss c traj c2 hT
        constructor
        · simp [hlenR]
        · intro i hi
          match i with
          | 0 =>
            intro j hj
            simp only [List.getD_cons_zero] at hj ⊢
            exact htraj j hj
          | i' + 1 =>
            intro j hj
            simp only [List.getD_cons_succ] at hj ⊢
            exact hrestR i' (by simpa using hi) j hj

/-- C5: For every state in the dataset whose abstraction over the
predicates-to-learn yields `n` ground atoms, `create_teacher_dataset` with
label ratio `r` returns for that state a set of exactly `floor(r × n)`
distinct ground atoms sampled without replacement; when `floor(r × n)` is
zero it instead raises an `ApproachFailure` (the degenerate-label failure),
not retried internally. -/
theorem C5_teacher_ratio (interp : Interp) (preds : Finset Predicate)
    (ratio : ℚ) (choice : Nat → Nat → Nat → List Nat)
    (hr0 : 0 ≤ ratio) (hr1 : ratio ≤ 1)
    (hchoice : ∀ c n k, k ≤ n → (choice c n k).length = k ∧
      (choice c n k).Nodup ∧ ∀ j ∈ choice c n k, j < n) :
    (∀ (c : Nat) (s : State),
      (0 < teacherFloor interp preds ratio s →
        ∃ A, teacherStateAtoms interp preds ratio choice c s = .ok A ∧
          A.card = teacherFloor interp preds ratio s ∧
          A ⊆ abstract interp s preds) ∧
      (teacherFloor interp preds ratio s = 0 →
        teacherStateAtoms interp preds ratio choice c s =
          .error "Need at least 1 ground atom sample")) ∧
    (∀ (dataset : List (List State)) (out : List (List (Finset GroundAtom))),
      create_teacher_dataset interp preds ratio choice dataset = .ok out →
      ∀ i, i < dataset.length → ∀ j, j < (dataset.getD i []).length →
        ((out.getD i []).getD j ∅).card =
          teacherFloor interp preds ratio ((dataset.getD i []).getD j [])) := by
  constructor
  · intro c s
    obtain ⟨herr, hokA, hex⟩ := teacherState_spec interp preds ratio choice
      hr0 hr1 hchoice c s
    constructor
    · intro h0
      obtain ⟨A, hA⟩ := hex h0
      obtain ⟨_, hcard, hsub⟩ := hokA A hA
      exact ⟨A, hA, hcard, hsub⟩
    · exact herr
  · intro dataset out h
    rw [create_teacher_dataset] at h
    rcases hT : teacherTrajs interp preds ratio choice dataset 0 with
      e | ⟨out0, c'⟩
    · rw [hT] at h; simp [Except.map] at h
    · rw [hT] at h
      have hout : out0 = out := by
        simpa [Except.map] using h
      rw [← hout]
      intro i hi j hj
      exact ((teacherTrajs_spec interp preds ratio choice hr0 hr1 hchoice
        dataset 0 out0 c' hT).2 i hi j hj).1

/-- Witness for C5 at a concrete one-state dataset with label ratio 1. -/
theorem C5_teacher_ratio_witness :
    ((scenarioTeacherOut.getD 0 []).getD 0 ∅).card =
      teacherFloor scenarioInterp {pred0} 1 (([[s09]].getD 0 []).getD 0 []) :=
  (C5_teacher_ratio scenarioInterp {pred0} 1 rangeChoice (by norm_num)
    (by norm_num)
    (fun c n k hk => ⟨List.length_range k, List.nodup_range k,
      fun j hj => by
        simp only [rangeChoice, List.mem_range] at hj
        omega⟩)).2
    [[s09]] scenarioTeacherOut (by with_unfolding_all decide)
    0 (by decide) 0 (by decide)

lemma inventSubsetStep_name (fit : FitOracle) (acceptScore : ℚ) (n : Nat)
    (op : Operator) (pairs : List (VarToObjSub × Transition)) :
    ∀ (l : List (List Variable)) (best : Option (ℚ × Predicate × Classifier)),
    (∀ r, best = some r → r.2.1.name = inventedName n) →
    ∀ r, l.foldl (inventSubsetStep fit acceptScore n op pairs) best = some r →
      r.2.1.name = inventedName n := by
  intro l
  induction l with
  | nil => intro best hbest r h; exact hbest r h
  | cons params rest ih =>
    intro best hbest r h
    simp only [List.foldl_cons] at h
    refine ih _ ?_ r h
    intro r' hr'
    rcases best with _ | ⟨bscore, bp, bc⟩
    · simp only [inventSubsetStep] at hr'
      split at hr'
      · simp at hr'
      · rw [← Option.some.inj hr']
    · simp only [inventSubsetStep] at hr'
      split at hr'
      · exact hbest r' hr'
      · split at hr'
        · rw [← Option.some.inj hr']
        · exact hbest r' (by rw [← hr'])

lemma invent_for_operator_name (fit : FitOracle) (acceptScore : ℚ)
    (n : Nat) (op : Operator) (transitions : List Transition)
    (pc : Predicate × Classifier)
    (h : _invent_for_operator fit acceptScore n op transitions =
      .ok (some pc)) : pc.1.name = inventedName n := by
  simp only [_invent_for_operator] at h
  split at h
  · exact absurd (Except.ok.inj h) (by simp)
  · split at h
    · exact absurd h (by simp)
    · split at h
      · exact absurd (Except.ok.inj h) (by simp)
      · have h' := Except.ok.inj h
        rcases hfold : (powerset_nonempty op.parameters).foldl
            (inventSubsetStep fit acceptScore n op
              (inventPairs op transitions)) none with _ | r
        · rw [hfold] at h'; simp at h'
        · rw [hfold] at h'
          simp only [Option.map_some'] at h'
          have hname := inventSubsetStep_name fit acceptScore n op
            (inventPairs op transitions) (powerset_nonempty op.parameters)
            none (by intro r' hr'; simp at hr') r hfold
          rw [← Option.some.inj h']
          exact hname

lemma inventOverOps_name (fit : FitOracle) (acceptScore : ℚ) (n : Nat)
    (transitions : List Transition) (operators : List Operator) :
    ∀ (idxs : List Nat) (pc : Predicate × Classifier),
    inventOverOps fit acceptScore n transitions operators idxs =
      .ok (some pc) → pc.1.name = inventedName n := by
  intro idxs
  induction idxs with
  | nil => intro pc h; exact absurd (Except.ok.inj h) (by simp)
  | cons j rest ih =>
    intro pc h
    rw [inventOverOps] at h
    rcases hop : _invent_for_operator fit acceptScore n
        (operators.getD j default) transitions with e | o
    · rw [hop] at h; simp at h
    · rcases o with _ | pc'
      · simp only [hop] at h
        exact ih pc h
      · simp only [hop] at h
        rw [← Option.some.inj (Except.ok.inj h)]
        exact invent_for_operator_name fit acceptScore n _ transitions pc'
          hop

lemma inventForSomeAux_name (fit : FitOracle) (acceptScore : ℚ)
    (minData n : Nat) (permOps : Nat → List Nat)
    (tbo : List (ParamOption × List Transition)) :
    ∀ (idxs : List Nat) (pc : Predicate × Classifier),
    inventForSomeAux fit acceptScore minData n permOps tbo idxs =
      .ok (some pc) → pc.1.name = inventedName n := by
  intro idxs
  induction idxs with
  | nil => intro pc h; exact absurd (Except.ok.inj h) (by simp)
  | cons i rest ih =>
    intro pc h
    rw [inventForSomeAux] at h
    rcases hops : learn_operators_for_option (tbo.getD i (default, [])).1
        minData (tbo.getD i (default, [])).2 with e | operators
    · rw [hops] at h; simp at h
    · simp only [hops] at h
      rcases hov : inventOverOps fit acceptScore n
          (tbo.getD i (default, [])).2 operators
          (permOps operators.length) with e | o
      · rw [hov] at h; simp at h
      · rcases o with _ | pc'
        · simp only [hov] at h
          exact ih pc h
        · simp only [hov] at h
          rw [← Option.some.inj (Except.ok.inj h)]
          exact inventOverOps_name fit acceptScore n _ operators _ pc' hov

lemma invent_for_some_operator_name (fit : FitOracle) (acceptScore : ℚ)
    (minData n : Nat) (permOpt permOps : Nat → List Nat)
    (tbo : List (ParamOption × List Transition))
    (pc : Predicate × Classifier)
    (h : _invent_for_some_operator fit acceptScore minData n permOpt
      permOps tbo = .ok (some pc)) : pc.1.name = inventedName n :=
  inventForSomeAux_name fit acceptScore minData n permOps tbo
    (permOpt tbo.length) pc h

lemma invention_step_some_spec (fit : FitOracle) (acceptScore : ℚ)
    (minData : Nat) (permOpt permOps : Nat → List Nat)
    (s s' : InventionState)
    (h : invention_step fit acceptScore minData permOpt permOps s =
      .ok (some s')) :
    ∃ (p : Predicate) (cls : Classifier),
      _invent_for_some_operator fit acceptScore minData s.numInventions
        permOpt permOps s.tbo = .ok (some (p, cls)) ∧
      p.name = inventedName s.numInventions ∧
      s'.learned = s.learned ∪ {p, (get_negation p cls).1} ∧
      s'.numInventions = s.numInventions + 1 ∧
      (get_negation p cls).1.name = "NOT-" ++ p.name := by
  rw [invention_step] at h
  rcases hres : _invent_for_some_operator fit acceptScore minData
      s.numInventions permOpt permOps s.tbo with e | o
  · rw [hres] at h; simp at h
  · rcases o with _ | ⟨p, cls⟩
    · simp only [hres] at h
      exact absurd (Except.ok.inj h) (by simp)
    · simp only [hres] at h
      have h' := (Option.some.inj (Except.ok.inj h)).symm
      refine ⟨p, cls, rfl,
        invent_for_some_operator_name fit acceptScore minData
          s.numInventions permOpt permOps s.tbo (p, cls) hres, ?_, ?_, rfl⟩
      · rw [h']
      · rw [h']

lemma NOT_name_ne (x : String) : "NOT-" ++ x ≠ x := by
  intro h
  have hlen := congrArg String.length h
  rw [String.length_append] at hlen
  have h4 : ("NOT-" : String).length = 4 := by decide
  rw [h4] at hlen
  omega

lemma learned_card_grows (learned : Finset Predicate) (p negP : Predicate)
    (hp : ∀ q ∈ learned, q.name ≠ p.name)
    (hn : ∀ q ∈ learned, q.name ≠ negP.name) (hpn : p ≠ negP) :
    (learned ∪ {p, negP}).card = learned.card + 2 := by
  have hdisj : Disjoint learned ({p, negP} : Finset Predicate) := by
    rw [Finset.disjoint_left]
    intro q hq hq2
    rcases Finset.mem_insert.mp hq2 with h' | h'
    · exact hp q hq (by rw [h'])
    · rw [Finset.mem_singleton] at h'
      exact hn q hq (by rw [h'])
  rw [Finset.card_union_of_disjoint hdisj, Finset.card_pair hpn]

/-- C4: Every iteration of the invention loop that finds a candidate adds
exactly two predicates to the learned predicate set — the candidate and
its logical negation — increments the invention counter by one, and names
the candidate deterministically from the invention counter; an iteration
that finds no candidate adds nothing and terminates the loop. -/
theorem C4_invention_adds_pair (fit : FitOracle) (acceptScore : ℚ)
    (minData : Nat) (permOpt permOps : Nat → List Nat) (s : InventionState)
    (hfresh : ∀ q ∈ s.learned,
      q.name ≠ inventedName s.numInventions ∧
      q.name ≠ "NOT-" ++ inventedName s.numInventions) :
    (∀ s', invention_step fit acceptScore minData permOpt permOps s =
        .ok (some s') →
      s'.numInventions = s.numInventions + 1 ∧
      s'.learned.card = s.learned.card + 2 ∧
      ∃ (p : Predicate) (cls : Classifier),
        p.name = inventedName s.numInventions ∧
        s'.learned = s.learned ∪ {p, (get_negation p cls).1} ∧
        (get_negation p cls).1.name = "NOT-" ++ p.name) ∧
    (invention_step fit acceptScore minData permOpt permOps s = .ok none →
      ∀ fuel, invention_loop fit acceptScore minData permOpt permOps
        (fuel + 1) s = .ok (s, true)) := by
  constructor
  · intro s' h
    obtain ⟨p, cls, hres, hname, hlearned, hnum, hnegname⟩ :=
      invention_step_some_spec fit acceptScore minData permOpt permOps s s' h
    have hpname : p.name = inventedName s.numInventions := hname
    have hnegname' : (get_negation p cls).1.name =
        "NOT-" ++ inventedName s.numInventions := by
      rw [hnegname, hpname]
    have hpn : p ≠ (get_negation p cls).1 := by
      intro he
      have := congrArg Predicate.name he
      rw [hnegname] at this
      exact NOT_name_ne p.name this.symm
    refine ⟨hnum, ?_, p, cls, hpname, hlearned, hnegname⟩
    rw [hlearned]
    exact learned_card_grows s.learned p (get_negation p cls).1
      (fun q hq => by rw [hpname]; exact (hfresh q hq).1)
      (fun q hq => by rw [hnegname']; exact (hfresh q hq).2) hpn
  · intro h fuel
    rw [invention_loop, h]

/-- Witness for C4 at the first scenario iteration. -/
theorem C4_invention_adds_pair_witness :
    scenarioState1.numInventions = scenarioState0.numInventions + 1 :=
  ((C4_invention_adds_pair constTrueFit (1 / 2) 1 idPerm idPerm
    scenarioState0 (by with_unfolding_all decide)).1 scenarioState1
    (by with_unfolding_all decide)).1

lemma invention_loop_converged_step (fit : FitOracle) (acceptScore : ℚ)
    (minData : Nat) (permOpt permOps : Nat → List Nat) :
    ∀ (fuel : Nat) (s s'' : InventionState),
    invention_loop fit acceptScore minData permOpt permOps fuel s =
      .ok (s'', true) →
    invention_step fit acceptScore minData permOpt permOps s'' = .ok none := by
  intro fuel
  induction fuel with
  | zero =>
    intro s s'' h
    have h' := Except.ok.inj h
    exact absurd (Prod.mk.inj h').2 (by simp)
  | succ f ih =>
    intro s s'' h
    rw [invention_loop] at h
    rcases hstep : invention_step fit acceptScore minData permOpt permOps s
      with e | o
    · rw [hstep] at h; simp at h
    · rcases o with _ | s'
      · simp only [hstep] at h
        have h' := Except.ok.inj h
        rw [← (Prod.mk.inj h').1]
        exact hstep
      · simp only [hstep] at h
        exact ih s' s'' h

/-- C7 (amended): the invention loop terminates exactly when an iteration
finds no candidate — such an iteration leaves the state unchanged — and
every other iteration strictly grows the learned predicate set and the
invention counter; but the total number of iterations is NOT bounded by
the number of operators times the number of non-empty parameter subsets
per operator: under a black-box classifier the loop can run past that
bound. -/
theorem C7_invention_loop_behavior (fit : FitOracle) (acceptScore : ℚ)
    (minData : Nat) (permOpt permOps : Nat → List Nat) (s : InventionState)
    (hfresh : ∀ q ∈ s.learned,
      q.name ≠ inventedName s.numInventions ∧
      q.name ≠ "NOT-" ++ inventedName s.numInventions) :
    (invention_step fit acceptScore minData permOpt permOps s = .ok none →
      ∀ fuel, invention_loop fit acceptScore minData permOpt permOps
        (fuel + 1) s = .ok (s, true)) ∧
    (∀ fuel s'', invention_loop fit acceptScore minData permOpt permOps
        fuel s = .ok (s'', true) →
      invention_step fit acceptScore minData permOpt permOps s'' =
        .ok none) ∧
    (∀ s', invention_step fit acceptScore minData permOpt permOps s =
        .ok (some s') →
      s.learned ⊂ s'.learned ∧
      s'.numInventions = s.numInventions + 1) ∧
    ((invention_loop constTrueFit (1 / 2) 1 idPerm idPerm
        (scenarioBound + 1) scenarioState0).map (fun r => r.2) =
      .ok false) := by
  refine ⟨?_, ?_, ?_, ?_⟩
  · intro h fuel
    rw [invention_loop, h]
  · intro fuel s'' h
    exact invention_loop_converged_step fit acceptScore minData permOpt
      permOps fuel s s'' h
  · intro s' h
    obtain ⟨p, cls, hres, hname, hlearned, hnum, hnegname⟩ :=
      invention_step_some_spec fit acceptScore minData permOpt permOps s s' h
    refine ⟨?_, hnum⟩
    rw [hlearned]
    constructor
    · exact Finset.subset_union_left
    · intro hsub
      have hp : p ∈ s.learned := hsub
        (Finset.mem_union_right _ (Finset.mem_insert_self _ _))
      exact (hfresh p hp).1 hname
  · with_unfolding_all decide

/-- Witness for C7 (amended) at the scenario's initial state. -/
theorem C7_invention_loop_behavior_witness :
    (invention_loop constTrueFit (1 / 2) 1 idPerm idPerm
        (scenarioBound + 1) scenarioState0).map (fun r => r.2) =
      .ok false :=
  (C7_invention_loop_behavior constTrueFit (1 / 2) 1 idPerm idPerm
    scenarioState0 (by with_unfolding_all decide)).2.2.2

/-- Counterexample to C7 as stated: on the concrete scenario dataset with
one operator and one non-empty parameter subset (claimed bound 1), the
invention loop performs two successful iterations without converging. -/
theorem C7_bound_counterexample :
    (invention_loop constTrueFit (1 / 2) 1 idPerm idPerm 2
        scenarioState0).map (fun r => (r.1.numInventions, r.2)) =
      .ok (2, false) ∧
    scenarioBound = 1 := by
  constructor
  · with_unfolding_all decide
  · with_unfolding_all decide

end Predicators
